import Mathlib

/-!
Verification development for the torrent-client bencode codec
(`src/bencode.rs`): a shallow embedding of the decoder, the encoder and
the info-hash derivation, together with theorems about the codec.

Bytes are modelled as `Nat` values (each below 256 in real inputs),
byte strings as `List Nat`.  Rust `String` values are byte lists that
passed UTF-8 validation; equality of Rust strings is byte equality.
Machine integers (`u64`) are `Nat` with explicit range checks where the
code performs them.  Fallible Rust code returns `Except`; places where
the Rust source calls `unwrap`/`panic!` (and therefore aborts instead
of returning an error) are modelled by the dedicated error constructor
`DErr.panicked` or, for `Bencode::build`, by `Option.none`.
-/

namespace Torrent

/-- ASCII bytes of a string literal (all keys and fixtures are ASCII). -/
def ascii (s : String) : List Nat := s.data.map Char.toNat

/-- Dictionary key `announce`. -/
def announceK : List Nat := ascii "announce"

/-- Dictionary key `info`. -/
def infoK : List Nat := ascii "info"

/-- Dictionary key `length`. -/
def lengthK : List Nat := ascii "length"

/-- Dictionary key `name`. -/
def nameK : List Nat := ascii "name"

/-- Dictionary key `piece length`. -/
def pieceLengthK : List Nat := ascii "piece length"

/-- Dictionary key `pieces`. -/
def piecesK : List Nat := ascii "pieces"

/-- Dictionary key `files`. -/
def filesK : List Nat := ascii "files"

/-- Dictionary key `path`. -/
def pathK : List Nat := ascii "path"

/-- Generic bencode value tree, the counterpart of bendy's object layer:
integers keep their mathematical value (the byte form is canonical, so
the two determine each other), byte strings are raw bytes, dictionaries
are key/value pairs in stream order (bendy's streaming `next_pair` makes
no uniqueness or ordering check). -/
inductive BValue where
  | int (i : Int)
  | str (s : List Nat)
  | list (xs : List BValue)
  | dict (ps : List (List Nat × BValue))

/-- Decode errors, following the taxonomy of the specification:
`malformed` for grammar and type errors, `missingField` for an absent
required key, `invalidValue` for invalid content such as non-UTF-8 text.
`panicked` marks the outcomes where the Rust source aborts the process
(`unwrap` on a failed `u64` parse, `length.unwrap()`); it is not a typed
error the caller could receive.  `nestingTooDeep` is bendy's
`StructureError::NestingTooDeep`, raised when the input nests more
container levels than the decoder's configured maximum depth. -/
inductive DErr where
  | malformed (msg : String)
  | missingField (f : String)
  | invalidValue (msg : String)
  | panicked (msg : String)
  | nestingTooDeep

/-- Continuation-byte test for UTF-8 validation. -/
def utf8Cont (b : Nat) : Bool := 128 ≤ b && b ≤ 191

/-- UTF-8 validity of a byte sequence (the check performed by Rust's
`String::from_utf8`, RFC 3629 table). -/
def isValidUtf8 : List Nat → Bool
  | [] => true
  | b :: rest =>
    if b ≤ 127 then isValidUtf8 rest
    else
      match rest with
      | [] => false
      | c :: r2 =>
        if 194 ≤ b && b ≤ 223 then utf8Cont c && isValidUtf8 r2
        else
          match r2 with
          | [] => false
          | d :: r3 =>
            if b = 224 then (160 ≤ c && c ≤ 191) && utf8Cont d && isValidUtf8 r3
            else if (225 ≤ b && b ≤ 236) || b = 238 || b = 239 then
              utf8Cont c && utf8Cont d && isValidUtf8 r3
            else if b = 237 then (128 ≤ c && c ≤ 159) && utf8Cont d && isValidUtf8 r3
            else
              match r3 with
              | [] => false
              | e :: r4 =>
                if b = 240 then (144 ≤ c && c ≤ 191) && utf8Cont d && utf8Cont e && isValidUtf8 r4
                else if 241 ≤ b && b ≤ 243 then
                  utf8Cont c && utf8Cont d && utf8Cont e && isValidUtf8 r4
                else if b = 244 then
                  (128 ≤ c && c ≤ 143) && utf8Cont d && utf8Cont e && isValidUtf8 r4
                else false

/-- Rust `str::parse::<u64>` on the canonical text of integer `i`:
succeeds exactly when the value fits an unsigned 64-bit integer. -/
def parseU64 (i : Int) : Option Nat :=
  if 0 ≤ i ∧ i < 2 ^ 64 then some i.toNat else none

/-- Sequential effectful map over a list, stopping at the first error
(the shape of every item-decoding loop in the source). -/
def mapME {A B : Type} (f : A → Except DErr B) : List A → Except DErr (List B)
  | [] => .ok []
  | x :: xs =>
    match f x with
    | .error e => .error e
    | .ok y =>
      match mapME f xs with
      | .error e => .error e
      | .ok ys => .ok (y :: ys)

/-- `String::decode_bencode_object`: a byte string that must be valid
UTF-8 text. -/
def decodeText : BValue → Except DErr (List Nat)
  | .str s => if isValidUtf8 s then .ok s else .error (.invalidValue "not utf8 text")
  | _ => .error (.malformed "expected a byte string")

/-- `AsString::decode_bencode_object`: raw bytes with no validation
(used for `pieces`). -/
def decodeRaw : BValue → Except DErr (List Nat)
  | .str s => .ok s
  | _ => .error (.malformed "expected a byte string")

/-- `value.try_into_integer().map(|v| v.parse::<u64>().unwrap())`: a
non-integer object is a typed error from bendy, while an integer outside
the `u64` range makes the Rust code panic on `unwrap`. -/
def decodeU64 : BValue → Except DErr Nat
  | .int i =>
    match parseU64 i with
    | some n => .ok n
    | none => .error (.panicked "u64 parse unwrap")
  | _ => .error (.malformed "expected an integer")

/-- `Vec::<String>::decode_bencode_object` (used for `path`). -/
def decodeTextList : BValue → Except DErr (List (List Nat))
  | .list xs => mapME decodeText xs
  | _ => .error (.malformed "expected a list")

/-- `File` record of `bencode.rs`. -/
structure File where
  length : Nat
  path : List (List Nat)

/-- Loop state of `File::decode_bencode_object`. -/
structure FState where
  length? : Option Nat
  path? : Option (List (List Nat))

/-- One iteration of the `File` decoding loop: recognized keys update
the state (a later occurrence overwrites), unknown keys are ignored. -/
def fileStep (s : FState) (p : List Nat × BValue) : Except DErr FState :=
  if p.1 = lengthK then do
    let n ← decodeU64 p.2
    .ok { s with length? := some n }
  else if p.1 = pathK then do
    let xs ← decodeTextList p.2
    .ok { s with path? := some xs }
  else .ok s

/-- `File::decode_bencode_object`. -/
def decodeFileVal : BValue → Except DErr File
  | .dict ps => do
    let s ← ps.foldlM fileStep ⟨none, none⟩
    match s.length? with
    | none => .error (.missingField "length")
    | some len =>
      match s.path? with
      | none => .error (.missingField "path")
      | some path => .ok ⟨len, path⟩
  | _ => .error (.malformed "expected a dictionary")

/-- The `files` key of the info dictionary: a list whose items are
decoded as `File` records in order. -/
def decodeFileList : BValue → Except DErr (List File)
  | .list xs => mapME decodeFileVal xs
  | _ => .error (.malformed "expected a list")

/-- `Files` layout variant of `bencode.rs`. -/
inductive Files where
  | single (n : Nat)
  | multiple (fs : List File)

/-- `Info` record of `bencode.rs`. -/
structure Info where
  name : List Nat
  piece_length : Nat
  files : Files
  pieces : List Nat

/-- Loop state of `Info::decode_bencode_object`. -/
structure IState where
  length? : Option Nat
  name? : Option (List Nat)
  pieceLength? : Option Nat
  pieces? : Option (List Nat)
  files : List File

/-- Initial state of the `Info` decoding loop. -/
def initI : IState := ⟨none, none, none, none, []⟩

/-- One iteration of the `Info` decoding loop, matching the `match pair`
arms of the Rust source: scalar keys overwrite, `files` appends the
decoded entries, anything else is ignored. -/
def infoStep (s : IState) (p : List Nat × BValue) : Except DErr IState :=
  if p.1 = lengthK then do
    let n ← decodeU64 p.2
    .ok { s with length? := some n }
  else if p.1 = nameK then do
    let x ← decodeText p.2
    .ok { s with name? := some x }
  else if p.1 = pieceLengthK then do
    let n ← decodeU64 p.2
    .ok { s with pieceLength? := some n }
  else if p.1 = piecesK then do
    let x ← decodeRaw p.2
    .ok { s with pieces? := some x }
  else if p.1 = filesK then do
    let fs ← decodeFileList p.2
    .ok { s with files := s.files ++ fs }
  else .ok s

/-- `Info::decode_bencode_object`: run the pair loop, then check the
required fields in source order; an empty `files` vector falls back to
`Files::Single(length.unwrap())`, where a missing `length` is a panic in
the Rust source. -/
def decodeInfoVal : BValue → Except DErr Info
  | .dict ps => do
    let s ← ps.foldlM infoStep initI
    match s.name? with
    | none => .error (.missingField "name")
    | some name =>
      match s.pieceLength? with
      | none => .error (.missingField "piece_length")
      | some pl =>
        match s.pieces? with
        | none => .error (.missingField "pieces")
        | some pieces =>
          if s.files.isEmpty then
            match s.length? with
            | none => .error (.panicked "length unwrap")
            | some len => .ok ⟨name, pl, .single len, pieces⟩
          else .ok ⟨name, pl, .multiple s.files, pieces⟩
  | _ => .error (.malformed "expected a dictionary")

/-- `Bencode` record (metainfo root) of `bencode.rs`. -/
structure Bencode where
  announce : List Nat
  info : Info

/-- Loop state of `Bencode::decode_bencode_object`. -/
structure BState where
  announce? : Option (List Nat)
  info? : Option Info

/-- One iteration of the `Bencode` decoding loop. -/
def bencodeStep (s : BState) (p : List Nat × BValue) : Except DErr BState :=
  if p.1 = announceK then do
    let x ← decodeText p.2
    .ok { s with announce? := some x }
  else if p.1 = infoK then do
    let i ← decodeInfoVal p.2
    .ok { s with info? := some i }
  else .ok s

/-- `Bencode::decode_bencode_object`. -/
def decodeBencodeVal : BValue → Except DErr Bencode
  | .dict ps => do
    let s ← ps.foldlM bencodeStep ⟨none, none⟩
    match s.announce? with
    | none => .error (.missingField "announce")
    | some a =>
      match s.info? with
      | none => .error (.missingField "info")
      | some i => .ok ⟨a, i⟩
  | _ => .error (.malformed "expected a dictionary")

/-! ### Decimal digits -/

/-- Little-endian ASCII decimal digits of `n`, driven by fuel (`fuel ≥ n`
suffices); empty for `n = 0`. -/
def decDigitsAux : Nat → Nat → List Nat
  | 0, _ => []
  | f + 1, n => if n = 0 then [] else (n % 10 + 48) :: decDigitsAux f (n / 10)

/-- Minimal decimal ASCII representation of a natural number, as emitted
by Rust integer formatting: no leading zeros, `"0"` for zero. -/
def natToDec (n : Nat) : List Nat :=
  if n = 0 then [48] else (decDigitsAux n n).reverse

/-- ASCII decimal digit test. -/
def isDigit (b : Nat) : Bool := 48 ≤ b && b ≤ 57

/-- Numeric value of a big-endian ASCII digit string. -/
def parseDec (ds : List Nat) : Nat := ds.foldl (fun a d => a * 10 + (d - 48)) 0

/-! ### Byte-level bencode parser

Modelled from the spec: the byte-level bencode grammar of section 4.1
(the bendy decoding layer, which is a dependency and not part of this
repository's sources): an integer is `i<digits>e` with no leading zeros
except the literal `0` and an optional `-` for negatives; a byte string
is `<length>:<bytes>`; a list is `l<items>e`; a dictionary is
`d<key><value>...e` with byte-string keys read in stream order, with no
ordering or uniqueness requirement. -/

/-- Parse a length-prefixed byte string `<decimal>:<bytes>` from the
front of the input. -/
def parseStrRaw (bs : List Nat) : Option (List Nat × List Nat) :=
  let ds := bs.takeWhile isDigit
  let r := bs.dropWhile isDigit
  if ds = [] then none
  else
    match r with
    | 58 :: r2 =>
      let n := parseDec ds
      if r2.length < n then none else some (r2.take n, r2.drop n)
    | _ => none

/-- Parse the body of an integer token (after the leading `i`):
optional minus sign, digits with no leading zero (and no `-0`), then the
terminator `e`. -/
def parseIntBody (bs : List Nat) : Option (BValue × List Nat) :=
  if bs.head? = some 45 then
    let r := bs.tail
    let ds := r.takeWhile isDigit
    let rest := r.dropWhile isDigit
    if ds = [] ∨ ds.head? = some 48 then none
    else
      match rest with
      | 101 :: r2 => some (.int (-(parseDec ds : Int)), r2)
      | _ => none
  else
    let ds := bs.takeWhile isDigit
    let rest := bs.dropWhile isDigit
    if ds = [] ∨ (1 < ds.length ∧ ds.head? = some 48) then none
    else
      match rest with
      | 101 :: r2 => some (.int (parseDec ds : Int), r2)
      | _ => none

/-- Parse consecutive list items with the given item parser until the
terminator `e`. -/
def parseItems (pv : List Nat → Option (BValue × List Nat)) :
    Nat → List Nat → Option (List BValue × List Nat)
  | 0, _ => none
  | g + 1, bs =>
    if bs.head? = some 101 then some ([], bs.tail)
    else do
      let (v, r) ← pv bs
      let (vs, r2) ← parseItems pv g r
      some (v :: vs, r2)

/-- Parse consecutive dictionary pairs (byte-string key, then value)
with the given value parser until the terminator `e`. -/
def parsePairs (pv : List Nat → Option (BValue × List Nat)) :
    Nat → List Nat → Option (List (List Nat × BValue) × List Nat)
  | 0, _ => none
  | g + 1, bs =>
    if bs.head? = some 101 then some ([], bs.tail)
    else do
      let (k, r) ← parseStrRaw bs
      let (v, r2) ← pv r
      let (ps, r3) ← parsePairs pv g r2
      some ((k, v) :: ps, r3)

/-- Parse one bencode value from the front of the input, dispatching on
the first byte (`i`, `l`, `d`, or a digit starting a byte string). -/
def parseVal : Nat → List Nat → Option (BValue × List Nat)
  | 0, _ => none
  | _ + 1, [] => none
  | f + 1, c :: r =>
    if c = 105 then parseIntBody (c :: r).tail
    else if c = 108 then (parseItems (parseVal f) f r).map (fun p => (BValue.list p.1, p.2))
    else if c = 100 then (parsePairs (parseVal f) f r).map (fun p => (BValue.dict p.1, p.2))
    else (parseStrRaw (c :: r)).map (fun p => (BValue.str p.1, p.2))

/-- Parse a complete buffer as a single bencode value with no trailing
bytes (the contract of `from_bencode` on an in-memory buffer). -/
def parseTop (bs : List Nat) : Option BValue :=
  match parseVal (bs.length + 1) bs with
  | some (v, []) => some v
  | _ => none

/-- Nesting depth check of a bencode value: `depthLE d v` holds exactly
when `v` nests at most `d` container (list or dictionary) levels.  This
is the success condition of bendy's `Decoder::with_max_depth d` on a
complete buffer: bendy rejects the opening of any container beyond
depth `d` with `NestingTooDeep`, so for a buffer that parses to `v` the
streaming check succeeds iff the tree of `v` is no deeper than `d`. -/
def depthLE : Nat → BValue → Bool
  | _, .int _ => true
  | _, .str _ => true
  | 0, .list _ => false
  | d + 1, .list xs => xs.all (fun x => depthLE d x)
  | 0, .dict _ => false
  | d + 1, .dict ps => ps.all (fun p => depthLE d p.2)

/-- `Info::from_bencode` on a byte buffer.  The `FromBencode` impl for
`Info` sets `EXPECTED_RECURSION_DEPTH = 1`, which `from_bencode` passes
to bendy as the decoder's maximum nesting depth, so any value nesting
more than one container level fails with `NestingTooDeep`. -/
def decodeInfoBytes (bs : List Nat) : Except DErr Info :=
  match parseTop bs with
  | some v => if depthLE 1 v then decodeInfoVal v else .error .nestingTooDeep
  | none => .error (.malformed "bencode grammar violation")

/-- `Bencode::from_bencode` on a byte buffer.  The `Bencode` impl does
not override `EXPECTED_RECURSION_DEPTH`, so bendy's default maximum
nesting depth of 2048 applies. -/
def decodeBencodeBytes (bs : List Nat) : Except DErr Bencode :=
  match parseTop bs with
  | some v => if depthLE 2048 v then decodeBencodeVal v else .error .nestingTooDeep
  | none => .error (.malformed "bencode grammar violation")

/-- `Bencode::build`: `from_bencode(input).unwrap_or_else(|err| panic!)`.
The `none` result models the process abort of the `panic!` call. -/
def bencodeBuild (input : List Nat) : Option Bencode :=
  match decodeBencodeBytes input with
  | .ok b => some b
  | .error _ => none

/-! ### Encoder (`ToBencode` for `Info` and `File`) -/

/-- Canonical encoding of a byte string: `<decimal length>:<raw bytes>`. -/
def encStr (s : List Nat) : List Nat := natToDec s.length ++ 58 :: s

/-- Canonical encoding of an unsigned integer: `i<minimal decimal>e`. -/
def encNat (n : Nat) : List Nat := 105 :: natToDec n ++ [101]

/-- Canonical encoding of a list of byte strings (used for `path`). -/
def encStrList (xs : List (List Nat)) : List Nat :=
  108 :: (xs.map encStr).flatten ++ [101]

/-- Serialize a dictionary from its ordered key/value-bytes pairs. -/
def encDict (ps : List (List Nat × List Nat)) : List Nat :=
  100 :: (ps.map (fun p => encStr p.1 ++ p.2)).flatten ++ [101]

/-- The key/value pairs emitted by `ToBencode for File`, in emission
order: `length` then `path`. -/
def filePairsB (f : File) : List (List Nat × List Nat) :=
  [(lengthK, encNat f.length), (pathK, encStrList f.path)]

/-- `ToBencode for File`. -/
def encFile (f : File) : List Nat := encDict (filePairsB f)

/-- Canonical encoding of the `files` list. -/
def encFiles (fs : List File) : List Nat :=
  108 :: (fs.map encFile).flatten ++ [101]

/-- The key/value pairs emitted by `ToBencode for Info`, in emission
order: `length` or `files` depending on the layout, then `name`,
`piece length`, `pieces`. -/
def infoPairsB (I : Info) : List (List Nat × List Nat) :=
  (match I.files with
   | .single n => [(lengthK, encNat n)]
   | .multiple fs => [(filesK, encFiles fs)]) ++
  [(nameK, encStr I.name), (pieceLengthK, encNat I.piece_length),
   (piecesK, encStr I.pieces)]

/-- `Info::to_bencode`: the canonical byte sequence of the info
dictionary. -/
def encodeInfoBytes (I : Info) : List Nat := encDict (infoPairsB I)

/-! ### SHA-1 and the info hash

Modelled from the spec: the `sha1` and `hex` crates are dependencies,
not part of this repository's sources; section 4.3 mandates plain SHA-1
over the canonical encoding, formatted as a 40-character lowercase hex
string.  The SHA-1 implementation below follows RFC 3174 on 32-bit
words represented as `Nat` reduced modulo `2 ^ 32`. -/

/-- Rotate a 32-bit word left by `k` bits. -/
def rotl (k x : Nat) : Nat := ((x <<< k) ||| (x >>> (32 - k))) % 4294967296

/-- Big-endian bytes of a 32-bit word. -/
def be4 (w : Nat) : List Nat :=
  [w / 16777216 % 256, w / 65536 % 256, w / 256 % 256, w % 256]

/-- Big-endian bytes of a 64-bit quantity. -/
def be8 (n : Nat) : List Nat :=
  [n / 2 ^ 56 % 256, n / 2 ^ 48 % 256, n / 2 ^ 40 % 256, n / 2 ^ 32 % 256,
   n / 2 ^ 24 % 256, n / 2 ^ 16 % 256, n / 2 ^ 8 % 256, n % 256]

/-- SHA-1 message padding: `0x80`, zeros to 56 mod 64, then the bit
length as a big-endian 64-bit integer. -/
def sha1Pad (msg : List Nat) : List Nat :=
  msg ++ 128 :: List.replicate ((119 - msg.length % 64) % 64) 0 ++ be8 (8 * msg.length)

/-- Group bytes into big-endian 32-bit words. -/
def bytesToWords : List Nat → List Nat
  | a :: b :: c :: d :: rest =>
    (a * 16777216 + b * 65536 + c * 256 + d) :: bytesToWords rest
  | _ => []

/-- Split a word list into chunks of 16 words (fuel-driven). -/
def chunks16 : Nat → List Nat → List (List Nat)
  | 0, _ => []
  | _, [] => []
  | f + 1, ws => ws.take 16 :: chunks16 f (ws.drop 16)

/-- Extend a reversed word schedule by `k` further words using the
SHA-1 recurrence, returning the full schedule in order. -/
def extendWords (acc : List Nat) : Nat → List Nat
  | 0 => acc.reverse
  | k + 1 =>
    extendWords
      (rotl 1 (acc.getD 2 0 ^^^ acc.getD 7 0 ^^^ acc.getD 13 0 ^^^ acc.getD 15 0) :: acc) k

/-- SHA-1 round function for round `i`. -/
def sha1F (i b c d : Nat) : Nat :=
  if i < 20 then (b &&& c) ||| ((b ^^^ 4294967295) &&& d)
  else if i < 40 then b ^^^ c ^^^ d
  else if i < 60 then (b &&& c) ||| (b &&& d) ||| (c &&& d)
  else b ^^^ c ^^^ d

/-- SHA-1 round constant for round `i`. -/
def sha1K (i : Nat) : Nat :=
  if i < 20 then 1518500249
  else if i < 40 then 1859775393
  else if i < 60 then 2400959708
  else 3395469782

/-- One SHA-1 round step on the working state `(a, b, c, d, e, i)`. -/
def sha1Step (st : Nat × Nat × Nat × Nat × Nat × Nat) (w : Nat) :
    Nat × Nat × Nat × Nat × Nat × Nat :=
  let (a, b, c, d, e, i) := st
  ((rotl 5 a + sha1F i b c d + e + sha1K i + w) % 4294967296, a, rotl 30 b, c, d, i + 1)

/-- Process one 512-bit chunk, updating the hash state. -/
def sha1Chunk (h : Nat × Nat × Nat × Nat × Nat) (ws : List Nat) :
    Nat × Nat × Nat × Nat × Nat :=
  let (h0, h1, h2, h3, h4) := h
  let (a, b, c, d, e, _) := (extendWords ws.reverse 64).foldl sha1Step (h0, h1, h2, h3, h4, 0)
  ((h0 + a) % 4294967296, (h1 + b) % 4294967296, (h2 + c) % 4294967296,
   (h3 + d) % 4294967296, (h4 + e) % 4294967296)

/-- SHA-1 digest (20 bytes) of a byte sequence. -/
def sha1 (msg : List Nat) : List Nat :=
  let ws := bytesToWords (sha1Pad msg)
  let t :=
    (chunks16 (ws.length + 1) ws).foldl sha1Chunk
      (1732584193, 4023233417, 2562383102, 271733878, 3285377520)
  be4 t.1 ++ be4 t.2.1 ++ be4 t.2.2.1 ++ be4 t.2.2.2.1 ++ be4 t.2.2.2.2

/-- Lowercase hexadecimal digit for a value below 16. -/
def hexChar (n : Nat) : Char :=
  if n < 10 then Char.ofNat (48 + n) else Char.ofNat (87 + n)

/-- Lowercase hexadecimal rendering of a byte sequence, high nibble
first, as produced by `hex::encode`. -/
def hexEncode : List Nat → List Char
  | [] => []
  | b :: bs => hexChar (b / 16 % 16) :: hexChar (b % 16) :: hexEncode bs

/-- `Bencode::info_hash`: hex-encoded SHA-1 of the canonical bencode
encoding of the `info` dictionary.  (The `to_bencode` call cannot fail
here: the emitted keys are strictly sorted, see the encoder-order
theorem, so the panic arm of `unwrap_or_else` is unreachable.) -/
def info_hash (I : Info) : String := String.mk (hexEncode (sha1 (encodeInfoBytes I)))

/-- Strict byte-lexicographic order on raw keys, the order in which
Rust compares byte slices (a strict prefix sorts first). -/
def keyLt : List Nat → List Nat → Bool
  | [], [] => false
  | [], _ :: _ => true
  | _ :: _, [] => false
  | a :: as, b :: bs => if a < b then true else if a = b then keyLt as bs else false

/-- The sixteen lowercase hexadecimal digit characters. -/
def hexDigits : List Char := "0123456789abcdef".data

/-- Value of the last occurrence of key `k` in a pair list. -/
def lastVal (k : List Nat) : List (List Nat × BValue) → Option BValue
  | [] => none
  | p :: ps =>
    match lastVal k ps with
    | some v => some v
    | none => if p.1 = k then some p.2 else none

/-- Values of all occurrences of key `k`, in stream order. -/
def valsOf (k : List Nat) (ps : List (List Nat × BValue)) : List BValue :=
  (ps.filter (fun p => p.1 = k)).map Prod.snd

/-- Keys recognized by `Bencode::decode_bencode_object`. -/
def topRecognized (k : List Nat) : Bool := k = announceK || k = infoK

/-- Keys recognized by `Info::decode_bencode_object`. -/
def infoRecognized (k : List Nat) : Bool :=
  k = lengthK || k = nameK || k = pieceLengthK || k = piecesK || k = filesK

/-- Keys recognized by `File::decode_bencode_object`. -/
def fileRecognized (k : List Nat) : Bool := k = lengthK || k = pathK

/-- The bencode value tree the canonical encoding of a `File` denotes. -/
def fileVal (f : File) : BValue :=
  .dict [(lengthK, .int f.length), (pathK, .list (f.path.map BValue.str))]

/-- The bencode value tree the canonical encoding of an `Info` denotes. -/
def infoVal (I : Info) : BValue :=
  .dict
    ((match I.files with
      | .single n => [(lengthK, BValue.int n)]
      | .multiple fs => [(filesK, BValue.list (fs.map fileVal))]) ++
     [(nameK, .str I.name), (pieceLengthK, .int I.piece_length), (piecesK, .str I.pieces)])

/-- Well-formedness of a decoded `File`: the invariants every value
produced by `File::decode_bencode_object` satisfies. -/
def WFfile (f : File) : Prop :=
  f.length < 2 ^ 64 ∧ ∀ p ∈ f.path, isValidUtf8 p = true

/-- Well-formedness of a decoded `Info`: the invariants every value
produced by `Info::decode_bencode_object` satisfies. -/
def WFinfo (I : Info) : Prop :=
  isValidUtf8 I.name = true ∧ I.piece_length < 2 ^ 64 ∧
    match I.files with
    | .single n => n < 2 ^ 64
    | .multiple fs => fs ≠ [] ∧ ∀ f ∈ fs, WFfile f

/-- Fuel sufficient for `parseVal` on the canonical encoding of a
`File`. -/
def boundFile (f : File) : Nat := f.path.length + 5

/-- Fuel sufficient for `parseVal` on the canonical encoding of a
`files` list. -/
def boundFiles (fs : List File) : Nat :=
  (fs.map (fun f => f.path.length)).sum + fs.length + 7

/-- Fuel sufficient for `parseVal` on the canonical encoding of an
`Info`. -/
def boundInfo (I : Info) : Nat :=
  (match I.files with
   | .single _ => 0
   | .multiple fs => (fs.map (fun f => f.path.length)).sum + fs.length) + 9

/-! ## Supporting lemmas -/

theorem sha1_length (msg : List Nat) : (sha1 msg).length = 20 := by
  simp [sha1, be4]

theorem hexEncode_length (bs : List Nat) : (hexEncode bs).length = 2 * bs.length := by
  induction bs with
  | nil => rfl
  | cons b bs ih => simp [hexEncode, ih]; omega

theorem hexChar_mem : ∀ n < 16, hexChar n ∈ hexDigits := by decide

theorem hexEncode_mem (bs : List Nat) : ∀ c ∈ hexEncode bs, c ∈ hexDigits := by
  induction bs with
  | nil => intro c hc; cases hc
  | cons b bs ih =>
    intro c hc
    rcases hc with _ | ⟨_, hc⟩
    · exact hexChar_mem _ (Nat.mod_lt _ (by omega))
    · rcases hc with _ | ⟨_, hc⟩
      · exact hexChar_mem _ (Nat.mod_lt _ (by omega))
      · exact ih c hc

section FoldLemmas

variable {σ α : Type}

theorem foldlM_except_nil (step : σ → α → Except DErr σ) (s₀ : σ) :
    ([] : List α).foldlM step s₀ = .ok s₀ := rfl

theorem foldlM_except_cons (step : σ → α → Except DErr σ) (s₀ : σ) (p : α) (ps : List α) :
    (p :: ps).foldlM step s₀ =
      match step s₀ p with
      | .ok s₁ => ps.foldlM step s₁
      | .error e => .error e := by
  cases h : step s₀ p <;> simp [List.foldlM_cons, h, Bind.bind, Except.bind]

theorem foldlM_filter_id (step : σ → α → Except DErr σ) (q : α → Bool)
    (hid : ∀ s a, q a = false → step s a = .ok s) :
    ∀ (ps : List α) (s₀ : σ), ps.foldlM step s₀ = (ps.filter q).foldlM step s₀ := by
  intro ps
  induction ps with
  | nil => intro s₀; rfl
  | cons p ps ih =>
    intro s₀
    by_cases hq : q p
    · rw [List.filter_cons_of_pos hq, foldlM_except_cons, foldlM_except_cons]
      cases h : step s₀ p
      · rfl
      · exact ih _
    · rw [List.filter_cons_of_neg (by simpa using hq), foldlM_except_cons,
        hid s₀ p (by simpa using hq)]
      exact ih s₀

theorem foldlM_inv (step : σ → α → Except DErr σ) (Inv : σ → Prop)
    (hstep : ∀ s a s', Inv s → step s a = .ok s' → Inv s') :
    ∀ (ps : List α) (s₀ s : σ), ps.foldlM step s₀ = .ok s → Inv s₀ → Inv s := by
  intro ps
  induction ps with
  | nil =>
    intro s₀ s h h0
    rw [foldlM_except_nil] at h
    cases h
    exact h0
  | cons p ps ih =>
    intro s₀ s h h0
    rw [foldlM_except_cons] at h
    cases hs : step s₀ p with
    | error e => rw [hs] at h; cases h
    | ok s₁ =>
      rw [hs] at h
      exact ih s₁ s h (hstep s₀ p s₁ h0 hs)

theorem mapME_ok_forall {β : Type} (f : α → Except DErr β) :
    ∀ (xs : List α) (ys : List β), mapME f xs = .ok ys →
      ∀ y ∈ ys, ∃ x ∈ xs, f x = .ok y := by
  intro xs
  induction xs with
  | nil =>
    intro ys h y hy
    cases h
    cases hy
  | cons x xs ih =>
    intro ys h y hy
    rw [mapME] at h
    cases hx : f x with
    | error e => rw [hx] at h; cases h
    | ok b =>
      rw [hx] at h
      cases hrest : mapME f xs with
      | error e => rw [hrest] at h; cases h
      | ok bs =>
        rw [hrest] at h
        cases h
        rcases hy with _ | ⟨_, hy⟩
        · exact ⟨x, by simp, hx⟩
        · obtain ⟨x', hx', hfx'⟩ := ih bs hrest y hy
          exact ⟨x', by simp [hx'], hfx'⟩

theorem mapME_map_ok {β : Type} (f : β → Except DErr α) (g : α → β) :
    ∀ (xs : List α), (∀ x ∈ xs, f (g x) = .ok x) →
      mapME f (xs.map g) = .ok xs := by
  intro xs
  induction xs with
  | nil => intro _; rfl
  | cons x xs ih =>
    intro h
    rw [List.map_cons, mapME, h x (by simp), ih (fun y hy => h y (by simp [hy]))]

end FoldLemmas

theorem lastVal_cons (k : List Nat) (p : List Nat × BValue) (ps : List (List Nat × BValue)) :
    lastVal k (p :: ps) =
      match lastVal k ps with
      | some v => some v
      | none => if p.1 = k then some p.2 else none := rfl

theorem lastVal_eq_none_of_not_mem (k : List Nat) :
    ∀ ps : List (List Nat × BValue), k ∉ ps.map Prod.fst → lastVal k ps = none := by
  intro ps
  induction ps with
  | nil => intro _; rfl
  | cons p ps ih =>
    intro h
    rw [List.map_cons, List.mem_cons, not_or] at h
    rw [lastVal_cons, ih h.2, if_neg (fun hh => h.1 hh.symm)]

theorem lastVal_mem (k : List Nat) :
    ∀ ps : List (List Nat × BValue), k ∈ ps.map Prod.fst → lastVal k ps ≠ none := by
  intro ps
  induction ps with
  | nil => intro h; cases h
  | cons p ps ih =>
    intro h
    rw [lastVal_cons]
    cases hl : lastVal k ps with
    | some v => simp
    | none =>
      rcases List.mem_cons.mp h with h1 | h2
      · rw [if_pos h1.symm]; simp
      · exact absurd hl (ih h2)

theorem valsOf_cons (kk : List Nat) (p : List Nat × BValue) (ps : List (List Nat × BValue)) :
    valsOf kk (p :: ps) = if p.1 = kk then p.2 :: valsOf kk ps else valsOf kk ps := by
  unfold valsOf
  by_cases h : p.1 = kk
  · rw [if_pos h, List.filter_cons_of_pos (by simpa using h), List.map_cons]
  · rw [if_neg h, List.filter_cons_of_neg (by simpa using h)]

theorem mapME_cons {A B : Type} (f : A → Except DErr B) (x : A) (xs : List A) :
    mapME f (x :: xs) =
      match f x with
      | .error e => .error e
      | .ok y =>
        match mapME f xs with
        | .error e => .error e
        | .ok ys => .ok (y :: ys) := rfl

theorem length_ne_nameK : ¬ (lengthK = nameK) := by decide
theorem length_ne_pieceLengthK : ¬ (lengthK = pieceLengthK) := by decide
theorem length_ne_piecesK : ¬ (lengthK = piecesK) := by decide
theorem length_ne_filesK : ¬ (lengthK = filesK) := by decide
theorem name_ne_lengthK : ¬ (nameK = lengthK) := by decide
theorem name_ne_pieceLengthK : ¬ (nameK = pieceLengthK) := by decide
theorem name_ne_piecesK : ¬ (nameK = piecesK) := by decide
theorem name_ne_filesK : ¬ (nameK = filesK) := by decide
theorem pieceLength_ne_nameK : ¬ (pieceLengthK = nameK) := by decide
theorem pieceLength_ne_piecesK : ¬ (pieceLengthK = piecesK) := by decide
theorem pieceLength_ne_lengthK : ¬ (pieceLengthK = lengthK) := by decide
theorem pieceLength_ne_filesK : ¬ (pieceLengthK = filesK) := by decide
theorem pieces_ne_nameK : ¬ (piecesK = nameK) := by decide
theorem pieces_ne_pieceLengthK : ¬ (piecesK = pieceLengthK) := by decide
theorem pieces_ne_lengthK : ¬ (piecesK = lengthK) := by decide
theorem pieces_ne_filesK : ¬ (piecesK = filesK) := by decide
theorem files_ne_nameK : ¬ (filesK = nameK) := by decide
theorem files_ne_pieceLengthK : ¬ (filesK = pieceLengthK) := by decide
theorem files_ne_piecesK : ¬ (filesK = piecesK) := by decide
theorem files_ne_lengthK : ¬ (filesK = lengthK) := by decide
theorem length_ne_pathK : ¬ (lengthK = pathK) := by decide
theorem path_ne_lengthK : ¬ (pathK = lengthK) := by decide
theorem announce_ne_infoK : ¬ (announceK = infoK) := by decide
theorem info_ne_announceK : ¬ (infoK = announceK) := by decide

theorem infoStep_eff (s₀ s₁ : IState) (p : List Nat × BValue)
    (h : infoStep s₀ p = .ok s₁) :
    (if p.1 = nameK then ∃ x, decodeText p.2 = .ok x ∧ s₁.name? = some x
     else s₁.name? = s₀.name?) ∧
    (if p.1 = pieceLengthK then ∃ n, decodeU64 p.2 = .ok n ∧ s₁.pieceLength? = some n
     else s₁.pieceLength? = s₀.pieceLength?) ∧
    (if p.1 = piecesK then ∃ x, decodeRaw p.2 = .ok x ∧ s₁.pieces? = some x
     else s₁.pieces? = s₀.pieces?) ∧
    (if p.1 = lengthK then ∃ n, decodeU64 p.2 = .ok n ∧ s₁.length? = some n
     else s₁.length? = s₀.length?) ∧
    (if p.1 = filesK then ∃ fs, decodeFileList p.2 = .ok fs ∧ s₁.files = s₀.files ++ fs
     else s₁.files = s₀.files) := by
  unfold infoStep at h
  split_ifs at h with h1 h2 h3 h4 h5
  · cases hd : decodeU64 p.2 with
    | error e => rw [hd] at h; cases h
    | ok n =>
      rw [hd] at h
      simp only [Bind.bind, Except.bind, Except.ok.injEq] at h
      subst h
      refine ⟨?_, ?_, ?_, ?_, ?_⟩
      · rw [h1, if_neg length_ne_nameK]
      · rw [h1, if_neg length_ne_pieceLengthK]
      · rw [h1, if_neg length_ne_piecesK]
      · rw [h1, if_pos rfl]
        exact ⟨n, rfl, rfl⟩
      · rw [h1, if_neg length_ne_filesK]
  · cases hd : decodeText p.2 with
    | error e => rw [hd] at h; cases h
    | ok x =>
      rw [hd] at h
      simp only [Bind.bind, Except.bind, Except.ok.injEq] at h
      subst h
      refine ⟨?_, ?_, ?_, ?_, ?_⟩
      · rw [h2, if_pos rfl]
        exact ⟨x, rfl, rfl⟩
      · rw [h2, if_neg name_ne_pieceLengthK]
      · rw [h2, if_neg name_ne_piecesK]
      · rw [h2, if_neg name_ne_lengthK]
      · rw [h2, if_neg name_ne_filesK]
  · cases hd : decodeU64 p.2 with
    | error e => rw [hd] at h; cases h
    | ok n =>
      rw [hd] at h
      simp only [Bind.bind, Except.bind, Except.ok.injEq] at h
      subst h
      refine ⟨?_, ?_, ?_, ?_, ?_⟩
      · rw [h3, if_neg pieceLength_ne_nameK]
      · rw [h3, if_pos rfl]
        exact ⟨n, rfl, rfl⟩
      · rw [h3, if_neg pieceLength_ne_piecesK]
      · rw [h3, if_neg pieceLength_ne_lengthK]
      · rw [h3, if_neg pieceLength_ne_filesK]
  · cases hd : decodeRaw p.2 with
    | error e => rw [hd] at h; cases h
    | ok x =>
      rw [hd] at h
      simp only [Bind.bind, Except.bind, Except.ok.injEq] at h
      subst h
      refine ⟨?_, ?_, ?_, ?_, ?_⟩
      · rw [h4, if_neg pieces_ne_nameK]
      · rw [h4, if_neg pieces_ne_pieceLengthK]
      · rw [h4, if_pos rfl]
        exact ⟨x, rfl, rfl⟩
      · rw [h4, if_neg pieces_ne_lengthK]
      · rw [h4, if_neg pieces_ne_filesK]
  · cases hd : decodeFileList p.2 with
    | error e => rw [hd] at h; cases h
    | ok fs =>
      rw [hd] at h
      simp only [Bind.bind, Except.bind, Except.ok.injEq] at h
      subst h
      refine ⟨?_, ?_, ?_, ?_, ?_⟩
      · rw [h5, if_neg files_ne_nameK]
      · rw [h5, if_neg files_ne_pieceLengthK]
      · rw [h5, if_neg files_ne_piecesK]
      · rw [h5, if_neg files_ne_lengthK]
      · rw [h5, if_pos rfl]
        exact ⟨fs, rfl, rfl⟩
  · cases h
    refine ⟨?_, ?_, ?_, ?_, ?_⟩
    · rw [if_neg h2]
    · rw [if_neg h3]
    · rw [if_neg h4]
    · rw [if_neg h1]
    · rw [if_neg h5]

theorem infoLoop_fields :
    ∀ (ps : List (List Nat × BValue)) (s₀ s : IState),
      ps.foldlM infoStep s₀ = .ok s →
      (match lastVal nameK ps with
       | none => s.name? = s₀.name?
       | some v => ∃ x, decodeText v = .ok x ∧ s.name? = some x) ∧
      (match lastVal pieceLengthK ps with
       | none => s.pieceLength? = s₀.pieceLength?
       | some v => ∃ n, decodeU64 v = .ok n ∧ s.pieceLength? = some n) ∧
      (match lastVal piecesK ps with
       | none => s.pieces? = s₀.pieces?
       | some v => ∃ x, decodeRaw v = .ok x ∧ s.pieces? = some x) ∧
      (match lastVal lengthK ps with
       | none => s.length? = s₀.length?
       | some v => ∃ n, decodeU64 v = .ok n ∧ s.length? = some n) ∧
      (∃ lss, mapME decodeFileList (valsOf filesK ps) = .ok lss ∧
        s.files = s₀.files ++ lss.flatten) := by
  intro ps
  induction ps with
  | nil =>
    intro s₀ s h
    rw [foldlM_except_nil] at h
    cases h
    exact ⟨rfl, rfl, rfl, rfl, [], rfl, by simp⟩
  | cons p ps ih =>
    intro s₀ s h
    rw [foldlM_except_cons] at h
    cases hs : infoStep s₀ p with
    | error e => rw [hs] at h; cases h
    | ok s₁ =>
      rw [hs] at h
      obtain ⟨Hname, Hpl, Hpieces, Hlen, lss, Hfs, Hsf⟩ := ih s₁ s h
      obtain ⟨Ename, Epl, Epieces, Elen, Efiles⟩ := infoStep_eff s₀ s₁ p hs
      refine ⟨?_, ?_, ?_, ?_, ?_⟩
      · rw [lastVal_cons]
        cases hlv : lastVal nameK ps with
        | some w => rw [hlv] at Hname; exact Hname
        | none =>
          rw [hlv] at Hname
          by_cases hk : p.1 = nameK
          · rw [if_pos hk] at Ename ⊢
            obtain ⟨w, hdw, hw⟩ := Ename
            exact ⟨w, hdw, Hname.trans hw⟩
          · rw [if_neg hk] at Ename ⊢
            exact Hname.trans Ename
      · rw [lastVal_cons]
        cases hlv : lastVal pieceLengthK ps with
        | some w => rw [hlv] at Hpl; exact Hpl
        | none =>
          rw [hlv] at Hpl
          by_cases hk : p.1 = pieceLengthK
          · rw [if_pos hk] at Epl ⊢
            obtain ⟨w, hdw, hw⟩ := Epl
            exact ⟨w, hdw, Hpl.trans hw⟩
          · rw [if_neg hk] at Epl ⊢
            exact Hpl.trans Epl
      · rw [lastVal_cons]
        cases hlv : lastVal piecesK ps with
        | some w => rw [hlv] at Hpieces; exact Hpieces
        | none =>
          rw [hlv] at Hpieces
          by_cases hk : p.1 = piecesK
          · rw [if_pos hk] at Epieces ⊢
            obtain ⟨w, hdw, hw⟩ := Epieces
            exact ⟨w, hdw, Hpieces.trans hw⟩
          · rw [if_neg hk] at Epieces ⊢
            exact Hpieces.trans Epieces
      · rw [lastVal_cons]
        cases hlv : lastVal lengthK ps with
        | some w => rw [hlv] at Hlen; exact Hlen
        | none =>
          rw [hlv] at Hlen
          by_cases hk : p.1 = lengthK
          · rw [if_pos hk] at Elen ⊢
            obtain ⟨w, hdw, hw⟩ := Elen
            exact ⟨w, hdw, Hlen.trans hw⟩
          · rw [if_neg hk] at Elen ⊢
            exact Hlen.trans Elen
      · rw [valsOf_cons]
        by_cases hk : p.1 = filesK
        · rw [if_pos hk] at Efiles ⊢
          obtain ⟨fs, hdf, hf⟩ := Efiles
          refine ⟨fs :: lss, ?_, ?_⟩
          · rw [mapME_cons, hdf, Hfs]
          · rw [Hsf, hf]
            simp
        · rw [if_neg hk] at Efiles ⊢
          exact ⟨lss, Hfs, by rw [Hsf, Efiles]⟩

theorem fileStep_eff (s₀ s₁ : FState) (p : List Nat × BValue)
    (h : fileStep s₀ p = .ok s₁) :
    (if p.1 = lengthK then ∃ n, decodeU64 p.2 = .ok n ∧ s₁.length? = some n
     else s₁.length? = s₀.length?) ∧
    (if p.1 = pathK then ∃ xs, decodeTextList p.2 = .ok xs ∧ s₁.path? = some xs
     else s₁.path? = s₀.path?) := by
  unfold fileStep at h
  split_ifs at h with h1 h2
  · cases hd : decodeU64 p.2 with
    | error e => rw [hd] at h; cases h
    | ok n =>
      rw [hd] at h
      simp only [Bind.bind, Except.bind, Except.ok.injEq] at h
      subst h
      refine ⟨?_, ?_⟩
      · rw [h1, if_pos rfl]
        exact ⟨n, rfl, rfl⟩
      · rw [h1, if_neg length_ne_pathK]
  · cases hd : decodeTextList p.2 with
    | error e => rw [hd] at h; cases h
    | ok xs =>
      rw [hd] at h
      simp only [Bind.bind, Except.bind, Except.ok.injEq] at h
      subst h
      refine ⟨?_, ?_⟩
      · rw [h2, if_neg path_ne_lengthK]
      · rw [h2, if_pos rfl]
        exact ⟨xs, rfl, rfl⟩
  · cases h
    exact ⟨by rw [if_neg h1], by rw [if_neg h2]⟩

theorem fileLoop_fields :
    ∀ (ps : List (List Nat × BValue)) (s₀ s : FState),
      ps.foldlM fileStep s₀ = .ok s →
      (match lastVal lengthK ps with
       | none => s.length? = s₀.length?
       | some v => ∃ n, decodeU64 v = .ok n ∧ s.length? = some n) ∧
      (match lastVal pathK ps with
       | none => s.path? = s₀.path?
       | some v => ∃ xs, decodeTextList v = .ok xs ∧ s.path? = some xs) := by
  intro ps
  induction ps with
  | nil =>
    intro s₀ s h
    rw [foldlM_except_nil] at h
    cases h
    exact ⟨rfl, rfl⟩
  | cons p ps ih =>
    intro s₀ s h
    rw [foldlM_except_cons] at h
    cases hs : fileStep s₀ p with
    | error e => rw [hs] at h; cases h
    | ok s₁ =>
      rw [hs] at h
      obtain ⟨Hlen, Hpath⟩ := ih s₁ s h
      obtain ⟨Elen, Epath⟩ := fileStep_eff s₀ s₁ p hs
      constructor
      · rw [lastVal_cons]
        cases hlv : lastVal lengthK ps with
        | some w => rw [hlv] at Hlen; exact Hlen
        | none =>
          rw [hlv] at Hlen
          by_cases hk : p.1 = lengthK
          · rw [if_pos hk] at Elen ⊢
            obtain ⟨n, hdn, hn⟩ := Elen
            exact ⟨n, hdn, Hlen.trans hn⟩
          · rw [if_neg hk] at Elen ⊢
            exact Hlen.trans Elen
      · rw [lastVal_cons]
        cases hlv : lastVal pathK ps with
        | some w => rw [hlv] at Hpath; exact Hpath
        | none =>
          rw [hlv] at Hpath
          by_cases hk : p.1 = pathK
          · rw [if_pos hk] at Epath ⊢
            obtain ⟨xs, hdx, hx⟩ := Epath
            exact ⟨xs, hdx, Hpath.trans hx⟩
          · rw [if_neg hk] at Epath ⊢
            exact Hpath.trans Epath

theorem bencodeStep_eff (s₀ s₁ : BState) (p : List Nat × BValue)
    (h : bencodeStep s₀ p = .ok s₁) :
    (if p.1 = announceK then ∃ x, decodeText p.2 = .ok x ∧ s₁.announce? = some x
     else s₁.announce? = s₀.announce?) ∧
    (if p.1 = infoK then ∃ i, decodeInfoVal p.2 = .ok i ∧ s₁.info? = some i
     else s₁.info? = s₀.info?) := by
  unfold bencodeStep at h
  split_ifs at h with h1 h2
  · cases hd : decodeText p.2 with
    | error e => rw [hd] at h; cases h
    | ok x =>
      rw [hd] at h
      simp only [Bind.bind, Except.bind, Except.ok.injEq] at h
      subst h
      refine ⟨?_, ?_⟩
      · rw [h1, if_pos rfl]
        exact ⟨x, rfl, rfl⟩
      · rw [h1, if_neg announce_ne_infoK]
  · cases hd : decodeInfoVal p.2 with
    | error e => rw [hd] at h; cases h
    | ok i =>
      rw [hd] at h
      simp only [Bind.bind, Except.bind, Except.ok.injEq] at h
      subst h
      refine ⟨?_, ?_⟩
      · rw [h2, if_neg info_ne_announceK]
      · rw [h2, if_pos rfl]
        exact ⟨i, rfl, rfl⟩
  · cases h
    exact ⟨by rw [if_neg h1], by rw [if_neg h2]⟩

theorem bencodeLoop_fields :
    ∀ (ps : List (List Nat × BValue)) (s₀ s : BState),
      ps.foldlM bencodeStep s₀ = .ok s →
      (match lastVal announceK ps with
       | none => s.announce? = s₀.announce?
       | some v => ∃ x, decodeText v = .ok x ∧ s.announce? = some x) ∧
      (match lastVal infoK ps with
       | none => s.info? = s₀.info?
       | some v => ∃ i, decodeInfoVal v = .ok i ∧ s.info? = some i) := by
  intro ps
  induction ps with
  | nil =>
    intro s₀ s h
    rw [foldlM_except_nil] at h
    cases h
    exact ⟨rfl, rfl⟩
  | cons p ps ih =>
    intro s₀ s h
    rw [foldlM_except_cons] at h
    cases hs : bencodeStep s₀ p with
    | error e => rw [hs] at h; cases h
    | ok s₁ =>
      rw [hs] at h
      obtain ⟨Hann, Hinfo⟩ := ih s₁ s h
      obtain ⟨Eann, Einfo⟩ := bencodeStep_eff s₀ s₁ p hs
      constructor
      · rw [lastVal_cons]
        cases hlv : lastVal announceK ps with
        | some w => rw [hlv] at Hann; exact Hann
        | none =>
          rw [hlv] at Hann
          by_cases hk : p.1 = announceK
          · rw [if_pos hk] at Eann ⊢
            obtain ⟨x, hdx, hx⟩ := Eann
            exact ⟨x, hdx, Hann.trans hx⟩
          · rw [if_neg hk] at Eann ⊢
            exact Hann.trans Eann
      · rw [lastVal_cons]
        cases hlv : lastVal infoK ps with
        | some w => rw [hlv] at Hinfo; exact Hinfo
        | none =>
          rw [hlv] at Hinfo
          by_cases hk : p.1 = infoK
          · rw [if_pos hk] at Einfo ⊢
            obtain ⟨i, hdi, hi⟩ := Einfo
            exact ⟨i, hdi, Hinfo.trans hi⟩
          · rw [if_neg hk] at Einfo ⊢
            exact Hinfo.trans Einfo

theorem infoStep_unknown (s : IState) (p : List Nat × BValue)
    (h : infoRecognized p.1 = false) : infoStep s p = .ok s := by
  unfold infoRecognized at h
  simp only [Bool.or_eq_false_iff, decide_eq_false_iff_not] at h
  obtain ⟨⟨⟨⟨h1, h2⟩, h3⟩, h4⟩, h5⟩ := h
  unfold infoStep
  rw [if_neg h1, if_neg h2, if_neg h3, if_neg h4, if_neg h5]

theorem bencodeStep_unknown (s : BState) (p : List Nat × BValue)
    (h : topRecognized p.1 = false) : bencodeStep s p = .ok s := by
  unfold topRecognized at h
  simp only [Bool.or_eq_false_iff, decide_eq_false_iff_not] at h
  obtain ⟨h1, h2⟩ := h
  unfold bencodeStep
  rw [if_neg h1, if_neg h2]

theorem fileStep_unknown (s : FState) (p : List Nat × BValue)
    (h : fileRecognized p.1 = false) : fileStep s p = .ok s := by
  unfold fileRecognized at h
  simp only [Bool.or_eq_false_iff, decide_eq_false_iff_not] at h
  obtain ⟨h1, h2⟩ := h
  unfold fileStep
  rw [if_neg h1, if_neg h2]

theorem list_isEmpty_eq_nil {A : Type} (l : List A) (h : l.isEmpty = true) : l = [] := by
  cases l
  · rfl
  · cases h

theorem decodeBencodeVal_ok_elim (ps : List (List Nat × BValue)) (b : Bencode)
    (h : decodeBencodeVal (.dict ps) = .ok b) :
    ∃ s : BState, ps.foldlM bencodeStep ⟨none, none⟩ = .ok s ∧
      s.announce? = some b.announce ∧ s.info? = some b.info := by
  simp only [decodeBencodeVal] at h
  cases hf : ps.foldlM bencodeStep (⟨none, none⟩ : BState) with
  | error e => rw [hf] at h; simp [Bind.bind, Except.bind] at h
  | ok s =>
    rw [hf] at h
    simp only [Bind.bind, Except.bind] at h
    cases ha : s.announce? with
    | none => simp only [ha] at h; cases h
    | some a =>
      simp only [ha] at h
      cases hi : s.info? with
      | none => simp only [hi] at h; cases h
      | some i =>
        simp only [hi] at h
        cases h
        exact ⟨s, rfl, ha, hi⟩

theorem decodeInfoVal_ok_elim (ps : List (List Nat × BValue)) (I : Info)
    (h : decodeInfoVal (.dict ps) = .ok I) :
    ∃ s : IState, ps.foldlM infoStep initI = .ok s ∧
      s.name? = some I.name ∧ s.pieceLength? = some I.piece_length ∧
      s.pieces? = some I.pieces ∧
      ((s.files = [] ∧ ∃ n, s.length? = some n ∧ I.files = .single n) ∨
       (s.files ≠ [] ∧ I.files = .multiple s.files)) := by
  simp only [decodeInfoVal] at h
  cases hf : ps.foldlM infoStep initI with
  | error e => rw [hf] at h; simp [Bind.bind, Except.bind] at h
  | ok s =>
    rw [hf] at h
    simp only [Bind.bind, Except.bind] at h
    cases hn : s.name? with
    | none => simp only [hn] at h; cases h
    | some name =>
      simp only [hn] at h
      cases hp : s.pieceLength? with
      | none => simp only [hp] at h; cases h
      | some pl =>
        simp only [hp] at h
        cases hq : s.pieces? with
        | none => simp only [hq] at h; cases h
        | some pieces =>
          simp only [hq] at h
          by_cases he : s.files.isEmpty = true
          · rw [if_pos he] at h
            cases hl : s.length? with
            | none => simp only [hl] at h; cases h
            | some len =>
              simp only [hl] at h
              cases h
              exact ⟨s, rfl, hn, hp, hq,
                .inl ⟨list_isEmpty_eq_nil _ he, len, hl, rfl⟩⟩
          · rw [if_neg he] at h
            cases h
            exact ⟨s, rfl, hn, hp, hq,
              .inr ⟨fun hnil => he (by rw [hnil]; rfl), rfl⟩⟩

theorem decodeFileVal_ok_elim (ps : List (List Nat × BValue)) (f : File)
    (h : decodeFileVal (.dict ps) = .ok f) :
    ∃ s : FState, ps.foldlM fileStep ⟨none, none⟩ = .ok s ∧
      s.length? = some f.length ∧ s.path? = some f.path := by
  simp only [decodeFileVal] at h
  cases hf : ps.foldlM fileStep (⟨none, none⟩ : FState) with
  | error e => rw [hf] at h; simp [Bind.bind, Except.bind] at h
  | ok s =>
    rw [hf] at h
    simp only [Bind.bind, Except.bind] at h
    cases hl : s.length? with
    | none => simp only [hl] at h; cases h
    | some len =>
      simp only [hl] at h
      cases hq : s.path? with
      | none => simp only [hq] at h; cases h
      | some path =>
        simp only [hq] at h
        cases h
        exact ⟨s, rfl, hl, hq⟩

/-! ## Claim theorems -/

/-- Claim C1: `info_hash` is a pure function of the `Info` value (hence
identical across repeated calls and across processes), and its result is
the 40-character lowercase hexadecimal rendering of the SHA-1 digest of
the canonical bencode encoding of that `Info`. -/
theorem c1_info_hash_deterministic_hex (I : Info) :
    info_hash I = String.mk (hexEncode (sha1 (encodeInfoBytes I))) ∧
    (info_hash I).length = 40 ∧
    ∀ c ∈ (info_hash I).data, c ∈ hexDigits := by
  refine ⟨rfl, ?_, ?_⟩
  · show (hexEncode (sha1 (encodeInfoBytes I))).length = 40
    rw [hexEncode_length, sha1_length]
  · intro c hc
    exact hexEncode_mem _ c hc

/-- Claim C2 is contradicted by the code: `Bencode::build` calls
`unwrap_or_else(|err| panic!(..))`, so a malformed buffer (here the
empty one) produces a typed decode error inside `from_bencode` and then
aborts the process instead of surfacing it; `none` models the abort. -/
theorem c2_build_panics_on_malformed_input :
    decodeBencodeBytes [] = .error (.malformed "bencode grammar violation") ∧
    bencodeBuild [] = none := ⟨rfl, rfl⟩

/-- Claim C3 is contradicted by the code: a `length` of `-1` or a
`piece length` of `2 ^ 64` passes bendy's integer tokenizer, then
`parse::<u64>().unwrap()` panics, so decoding aborts instead of
returning an `InvalidValue` error. -/
theorem c3_out_of_range_integer_panics :
    decodeInfoBytes (ascii "d6:lengthi-1e4:name1:a12:piece lengthi1e6:pieces0:e") =
      .error (.panicked "u64 parse unwrap") ∧
    decodeInfoBytes (ascii "d4:name1:a12:piece lengthi18446744073709551616e6:pieces0:e") =
      .error (.panicked "u64 parse unwrap") := ⟨rfl, rfl⟩

/-- Claim C4 fails on the code: an info dictionary whose `pieces` byte
string has length 1 (not a multiple of 20) decodes successfully instead
of being rejected with `InvalidValue`. -/
theorem c4_counterexample :
    decodeInfoBytes (ascii "d6:lengthi1e4:name1:a12:piece lengthi1e6:pieces1:Ze") =
      .ok ⟨ascii "a", 1, .single 1, ascii "Z"⟩ ∧
    (ascii "Z").length % 20 ≠ 0 := ⟨rfl, by decide⟩

/-- Claim C4 amended: decoding performs no check on the length of
`pieces`; the decoded `pieces` buffer is exactly the raw byte string of
the input, whatever its length, so `pieces.len() % 20 == 0` holds only
when the input already satisfies it. -/
theorem c4_pieces_length_unchecked (bs : List Nat) :
    decodeInfoVal (.dict [(lengthK, .int 1), (nameK, .str (ascii "a")),
      (pieceLengthK, .int 1), (piecesK, .str bs)]) =
    .ok ⟨ascii "a", 1, .single 1, bs⟩ := rfl

/-- Claim C6: the encoder emits the top-level dictionary keys in strict
ascending byte-lexicographic order — `files` or `length` (only the one
the layout variant requires), then `name`, `piece length`, `pieces` —
and each file record emits `length` before `path`. -/
theorem c6_encoder_key_order (I : Info) :
    ((infoPairsB I).map Prod.fst =
      match I.files with
      | .single _ => [lengthK, nameK, pieceLengthK, piecesK]
      | .multiple _ => [filesK, nameK, pieceLengthK, piecesK]) ∧
    List.Pairwise (fun a b => keyLt a b = true) ((infoPairsB I).map Prod.fst) ∧
    ∀ f : File, (filePairsB f).map Prod.fst = [lengthK, pathK] ∧
      List.Pairwise (fun a b => keyLt a b = true) ((filePairsB f).map Prod.fst) := by
  obtain ⟨name, pl, files, pieces⟩ := I
  refine ⟨?_, ?_, fun f => ⟨rfl, ?_⟩⟩
  · cases files <;> rfl
  · cases files with
    | single n =>
      show List.Pairwise (fun a b => keyLt a b = true) [lengthK, nameK, pieceLengthK, piecesK]
      decide
    | multiple fs =>
      show List.Pairwise (fun a b => keyLt a b = true) [filesK, nameK, pieceLengthK, piecesK]
      decide
  · show List.Pairwise (fun a b => keyLt a b = true) [lengthK, pathK]
    decide

/-- Claim C9: unknown dictionary keys are silently ignored at every
level (metainfo root, info dictionary, file record): decoding a
dictionary gives the same result — success or error alike — as decoding
the dictionary with the unrecognized pairs removed. -/
theorem c9_unknown_keys_ignored :
    (∀ ps : List (List Nat × BValue),
       decodeBencodeVal (.dict ps) =
         decodeBencodeVal (.dict (ps.filter (fun p => topRecognized p.1)))) ∧
    (∀ ps : List (List Nat × BValue),
       decodeInfoVal (.dict ps) =
         decodeInfoVal (.dict (ps.filter (fun p => infoRecognized p.1)))) ∧
    (∀ ps : List (List Nat × BValue),
       decodeFileVal (.dict ps) =
         decodeFileVal (.dict (ps.filter (fun p => fileRecognized p.1)))) := by
  refine ⟨fun ps => ?_, fun ps => ?_, fun ps => ?_⟩
  · simp only [decodeBencodeVal]
    rw [foldlM_filter_id bencodeStep (fun p => topRecognized p.1)
      (fun s p hp => bencodeStep_unknown s p hp) ps ⟨none, none⟩]
  · simp only [decodeInfoVal]
    rw [foldlM_filter_id infoStep (fun p => infoRecognized p.1)
      (fun s p hp => infoStep_unknown s p hp) ps initI]
  · simp only [decodeFileVal]
    rw [foldlM_filter_id fileStep (fun p => fileRecognized p.1)
      (fun s p hp => fileStep_unknown s p hp) ps ⟨none, none⟩]

/-- Claim C10: when decoding succeeds, the last occurrence of a repeated
scalar key wins (`announce`, `info`, `name`, `piece length`, `pieces`,
`length`), and the file entries of all `files` occurrences are appended
in stream order into one `Multiple` layout. -/
theorem c10_duplicate_keys_last_wins :
    (∀ (ps : List (List Nat × BValue)) (b : Bencode),
       decodeBencodeVal (.dict ps) = .ok b →
       (∃ v, lastVal announceK ps = some v ∧ decodeText v = .ok b.announce) ∧
       (∃ v, lastVal infoK ps = some v ∧ decodeInfoVal v = .ok b.info)) ∧
    (∀ (ps : List (List Nat × BValue)) (I : Info),
       decodeInfoVal (.dict ps) = .ok I →
       (∃ v, lastVal nameK ps = some v ∧ decodeText v = .ok I.name) ∧
       (∃ v, lastVal pieceLengthK ps = some v ∧ decodeU64 v = .ok I.piece_length) ∧
       (∃ v, lastVal piecesK ps = some v ∧ decodeRaw v = .ok I.pieces) ∧
       (∀ n, I.files = .single n →
          ∃ v, lastVal lengthK ps = some v ∧ decodeU64 v = .ok n) ∧
       (∃ lss, mapME decodeFileList (valsOf filesK ps) = .ok lss ∧
          (lss.flatten ≠ [] → I.files = .multiple lss.flatten))) := by
  constructor
  · intro ps b h
    obtain ⟨s, hf, ha, hi⟩ := decodeBencodeVal_ok_elim ps b h
    obtain ⟨Mann, Minfo⟩ := bencodeLoop_fields ps ⟨none, none⟩ s hf
    constructor
    · cases hlv : lastVal announceK ps with
      | none => simp only [hlv] at Mann; rw [ha] at Mann; simp at Mann
      | some v =>
        simp only [hlv] at Mann
        obtain ⟨x, hdx, hsx⟩ := Mann
        rw [ha] at hsx
        cases hsx
        exact ⟨v, rfl, hdx⟩
    · cases hlv : lastVal infoK ps with
      | none => simp only [hlv] at Minfo; rw [hi] at Minfo; simp at Minfo
      | some v =>
        simp only [hlv] at Minfo
        obtain ⟨i, hdi, hsi⟩ := Minfo
        rw [hi] at hsi
        cases hsi
        exact ⟨v, rfl, hdi⟩
  · intro ps I h
    obtain ⟨s, hf, hn, hp, hq, hlayout⟩ := decodeInfoVal_ok_elim ps I h
    obtain ⟨Mname, Mpl, Mpieces, Mlen, lss, Mfs, Msf⟩ := infoLoop_fields ps initI s hf
    refine ⟨?_, ?_, ?_, ?_, ?_⟩
    · cases hlv : lastVal nameK ps with
      | none => simp only [hlv] at Mname; rw [hn] at Mname; simp [initI] at Mname
      | some v =>
        simp only [hlv] at Mname
        obtain ⟨x, hdx, hsx⟩ := Mname
        rw [hn] at hsx
        cases hsx
        exact ⟨v, rfl, hdx⟩
    · cases hlv : lastVal pieceLengthK ps with
      | none => simp only [hlv] at Mpl; rw [hp] at Mpl; simp [initI] at Mpl
      | some v =>
        simp only [hlv] at Mpl
        obtain ⟨n, hdn, hsn⟩ := Mpl
        rw [hp] at hsn
        cases hsn
        exact ⟨v, rfl, hdn⟩
    · cases hlv : lastVal piecesK ps with
      | none => simp only [hlv] at Mpieces; rw [hq] at Mpieces; simp [initI] at Mpieces
      | some v =>
        simp only [hlv] at Mpieces
        obtain ⟨x, hdx, hsx⟩ := Mpieces
        rw [hq] at hsx
        cases hsx
        exact ⟨v, rfl, hdx⟩
    · intro n hsingle
      rcases hlayout with ⟨hemp, m, hlm, hIf⟩ | ⟨hne, hIf⟩
      · rw [hIf] at hsingle
        cases hsingle
        cases hlv : lastVal lengthK ps with
        | none => simp only [hlv] at Mlen; rw [hlm] at Mlen; simp [initI] at Mlen
        | some v =>
          simp only [hlv] at Mlen
          obtain ⟨m', hdm, hsm⟩ := Mlen
          rw [hlm] at hsm
          cases hsm
          exact ⟨v, rfl, hdm⟩
      · rw [hIf] at hsingle
        cases hsingle
    · refine ⟨lss, Mfs, fun hne => ?_⟩
      rcases hlayout with ⟨hemp, m, hlm, hIf⟩ | ⟨hne2, hIf⟩
      · rw [Msf, show initI.files = ([] : List File) from rfl, List.nil_append] at hemp
        exact absurd hemp hne
      · rw [hIf, Msf]
        simp [initI]

/-- Witness for C10 at a concrete dictionary with a duplicated `name`
key and two `files` keys: the second name wins and the file entries are
appended. -/
theorem c10_duplicate_keys_last_wins_witness :
    (∃ v, lastVal nameK
        [(nameK, BValue.str (ascii "a")), (nameK, BValue.str (ascii "b")),
         (pieceLengthK, BValue.int 1), (piecesK, BValue.str []),
         (filesK, BValue.list [BValue.dict
            [(lengthK, BValue.int 1), (pathK, BValue.list [BValue.str (ascii "p")])]]),
         (filesK, BValue.list [BValue.dict
            [(lengthK, BValue.int 2), (pathK, BValue.list [BValue.str (ascii "q")])]])] =
        some v ∧ decodeText v = .ok (ascii "b")) ∧
    (∃ lss, mapME decodeFileList (valsOf filesK
        [(nameK, BValue.str (ascii "a")), (nameK, BValue.str (ascii "b")),
         (pieceLengthK, BValue.int 1), (piecesK, BValue.str []),
         (filesK, BValue.list [BValue.dict
            [(lengthK, BValue.int 1), (pathK, BValue.list [BValue.str (ascii "p")])]]),
         (filesK, BValue.list [BValue.dict
            [(lengthK, BValue.int 2), (pathK, BValue.list [BValue.str (ascii "q")])]])]) =
        .ok lss ∧
      (lss.flatten ≠ [] →
        Files.multiple [⟨1, [ascii "p"]⟩, ⟨2, [ascii "q"]⟩] = Files.multiple lss.flatten)) := by
  have h := c10_duplicate_keys_last_wins.2
    [(nameK, BValue.str (ascii "a")), (nameK, BValue.str (ascii "b")),
     (pieceLengthK, BValue.int 1), (piecesK, BValue.str []),
     (filesK, BValue.list [BValue.dict
        [(lengthK, BValue.int 1), (pathK, BValue.list [BValue.str (ascii "p")])]]),
     (filesK, BValue.list [BValue.dict
        [(lengthK, BValue.int 2), (pathK, BValue.list [BValue.str (ascii "q")])]])]
    ⟨ascii "b", 1, .multiple [⟨1, [ascii "p"]⟩, ⟨2, [ascii "q"]⟩], []⟩ rfl
  exact ⟨h.1, h.2.2.2.2⟩

/-- Claim C5: for every successfully decoded info dictionary the
`length` and `files` keys are interpreted mutually exclusively: when
the combined `files` entries are non-empty the layout is `Multiple`
(even if a `length` key is also present), otherwise a decodable
`length` key is required and yields `Single`; exactly one variant is
populated. -/
theorem c5_layout_exclusivity :
    ∀ (ps : List (List Nat × BValue)) (I : Info),
      decodeInfoVal (.dict ps) = .ok I →
      ∃ lss, mapME decodeFileList (valsOf filesK ps) = .ok lss ∧
        ((lss.flatten ≠ [] ∧ I.files = .multiple lss.flatten ∧
            ∀ n, I.files ≠ .single n) ∨
         (lss.flatten = [] ∧
           (∃ v n, lastVal lengthK ps = some v ∧ decodeU64 v = .ok n ∧
              I.files = .single n) ∧
           ∀ fs, I.files ≠ .multiple fs)) := by
  intro ps I h
  obtain ⟨s, hf, hn, hp, hq, hlayout⟩ := decodeInfoVal_ok_elim ps I h
  obtain ⟨Mname, Mpl, Mpieces, Mlen, lss, Mfs, Msf⟩ := infoLoop_fields ps initI s hf
  refine ⟨lss, Mfs, ?_⟩
  rcases hlayout with ⟨hemp, m, hlm, hIf⟩ | ⟨hne, hIf⟩
  · right
    have hfl : lss.flatten = [] := by
      rw [Msf] at hemp
      simpa [initI] using hemp
    refine ⟨hfl, ?_, ?_⟩
    · cases hlv : lastVal lengthK ps with
      | none => simp only [hlv] at Mlen; rw [hlm] at Mlen; simp [initI] at Mlen
      | some v =>
        simp only [hlv] at Mlen
        obtain ⟨m', hdm, hsm⟩ := Mlen
        rw [hlm] at hsm
        cases hsm
        exact ⟨v, m, rfl, hdm, hIf⟩
    · intro fs hcontra
      rw [hIf] at hcontra
      cases hcontra
  · left
    have hsf : s.files = lss.flatten := by
      rw [Msf]
      simp [initI]
    refine ⟨?_, ?_, ?_⟩
    · rw [← hsf]
      exact hne
    · rw [hIf, hsf]
    · intro n hcontra
      rw [hIf] at hcontra
      cases hcontra

/-- Witness for C5 at a concrete dictionary carrying both a `length`
key and a non-empty `files` key: the layout resolves to `Multiple`
(files wins). -/
theorem c5_layout_exclusivity_witness :
    ∃ lss, mapME decodeFileList (valsOf filesK
        [(lengthK, BValue.int 5), (nameK, BValue.str (ascii "a")),
         (pieceLengthK, BValue.int 1), (piecesK, BValue.str []),
         (filesK, BValue.list [BValue.dict
            [(lengthK, BValue.int 3), (pathK, BValue.list [BValue.str (ascii "p")])]])]) =
      .ok lss ∧
      ((lss.flatten ≠ [] ∧ Files.multiple [⟨3, [ascii "p"]⟩] = .multiple lss.flatten ∧
          ∀ n, Files.multiple [⟨3, [ascii "p"]⟩] ≠ .single n) ∨
       (lss.flatten = [] ∧
         (∃ v n, lastVal lengthK
            [(lengthK, BValue.int 5), (nameK, BValue.str (ascii "a")),
             (pieceLengthK, BValue.int 1), (piecesK, BValue.str []),
             (filesK, BValue.list [BValue.dict
                [(lengthK, BValue.int 3), (pathK, BValue.list [BValue.str (ascii "p")])]])] =
              some v ∧ decodeU64 v = .ok n ∧
            Files.multiple [⟨3, [ascii "p"]⟩] = .single n) ∧
         ∀ fs, Files.multiple [⟨3, [ascii "p"]⟩] ≠ .multiple fs)) :=
  c5_layout_exclusivity
    [(lengthK, BValue.int 5), (nameK, BValue.str (ascii "a")),
     (pieceLengthK, BValue.int 1), (piecesK, BValue.str []),
     (filesK, BValue.list [BValue.dict
        [(lengthK, BValue.int 3), (pathK, BValue.list [BValue.str (ascii "p")])]])]
    ⟨ascii "a", 1, .multiple [⟨3, [ascii "p"]⟩], []⟩ rfl

/-- Claim C8: an info dictionary (whose pair loop itself succeeds)
lacking `name`, `piece length` or `pieces` decodes to a `MissingField`
error naming the absent field (checked in source order `name`,
`piece_length`, `pieces`), and a successful decode implies all three
keys were present — never a default-filled value. -/
theorem c8_missing_fields :
    ∀ ps : List (List Nat × BValue),
      ((∃ s, ps.foldlM infoStep initI = .ok s) →
        ((nameK ∉ ps.map Prod.fst →
            decodeInfoVal (.dict ps) = .error (.missingField "name")) ∧
         (nameK ∈ ps.map Prod.fst → pieceLengthK ∉ ps.map Prod.fst →
            decodeInfoVal (.dict ps) = .error (.missingField "piece_length")) ∧
         (nameK ∈ ps.map Prod.fst → pieceLengthK ∈ ps.map Prod.fst →
            piecesK ∉ ps.map Prod.fst →
            decodeInfoVal (.dict ps) = .error (.missingField "pieces")))) ∧
      ∀ I, decodeInfoVal (.dict ps) = .ok I →
        nameK ∈ ps.map Prod.fst ∧ pieceLengthK ∈ ps.map Prod.fst ∧
          piecesK ∈ ps.map Prod.fst := by
  intro ps
  constructor
  · rintro ⟨s, hf⟩
    obtain ⟨Mname, Mpl, Mpieces, Mlen, lss, Mfs, Msf⟩ := infoLoop_fields ps initI s hf
    have getSome : ∀ (k : List Nat), k ∈ ps.map Prod.fst → ∃ v, lastVal k ps = some v := by
      intro k hk
      cases hlv : lastVal k ps with
      | none => exact absurd hlv (lastVal_mem k ps hk)
      | some v => exact ⟨v, rfl⟩
    refine ⟨?_, ?_, ?_⟩
    · intro hnot
      have h1 : s.name? = none := by
        simp only [lastVal_eq_none_of_not_mem nameK ps hnot] at Mname
        simpa [initI] using Mname
      simp [decodeInfoVal, hf, Bind.bind, Except.bind, h1]
    · intro hname hnot
      obtain ⟨v, hlv⟩ := getSome nameK hname
      simp only [hlv] at Mname
      obtain ⟨x, hdx, hsx⟩ := Mname
      have h2 : s.pieceLength? = none := by
        simp only [lastVal_eq_none_of_not_mem pieceLengthK ps hnot] at Mpl
        simpa [initI] using Mpl
      simp [decodeInfoVal, hf, Bind.bind, Except.bind, hsx, h2]
    · intro hname hpl hnot
      obtain ⟨v, hlv⟩ := getSome nameK hname
      simp only [hlv] at Mname
      obtain ⟨x, hdx, hsx⟩ := Mname
      obtain ⟨w, hlw⟩ := getSome pieceLengthK hpl
      simp only [hlw] at Mpl
      obtain ⟨n, hdn, hsn⟩ := Mpl
      have h3 : s.pieces? = none := by
        simp only [lastVal_eq_none_of_not_mem piecesK ps hnot] at Mpieces
        simpa [initI] using Mpieces
      simp [decodeInfoVal, hf, Bind.bind, Except.bind, hsx, hsn, h3]
  · intro I h
    obtain ⟨s, hf, hn, hp, hq, _⟩ := decodeInfoVal_ok_elim ps I h
    obtain ⟨Mname, Mpl, Mpieces, _, _, _, _⟩ := infoLoop_fields ps initI s hf
    refine ⟨?_, ?_, ?_⟩
    · by_contra hnot
      simp only [lastVal_eq_none_of_not_mem nameK ps hnot] at Mname
      rw [hn] at Mname
      simp [initI] at Mname
    · by_contra hnot
      simp only [lastVal_eq_none_of_not_mem pieceLengthK ps hnot] at Mpl
      rw [hp] at Mpl
      simp [initI] at Mpl
    · by_contra hnot
      simp only [lastVal_eq_none_of_not_mem piecesK ps hnot] at Mpieces
      rw [hq] at Mpieces
      simp [initI] at Mpieces

/-- Witness for C8 at a concrete dictionary lacking `name`: decoding
reports `MissingField name`. -/
theorem c8_missing_fields_witness :
    decodeInfoVal (.dict [(pieceLengthK, BValue.int 1)]) =
      .error (.missingField "name") :=
  ((c8_missing_fields [(pieceLengthK, BValue.int 1)]).1
    ⟨⟨none, none, some 1, none, []⟩, rfl⟩).1 (by decide)

/-! ## Round-trip machinery: decimal digits -/

theorem decDigitsAux_digits :
    ∀ (fuel n : Nat), ∀ d ∈ decDigitsAux fuel n, 48 ≤ d ∧ d ≤ 57 := by
  intro fuel
  induction fuel with
  | zero => intro n d hd; cases hd
  | succ f ih =>
    intro n d hd
    rw [decDigitsAux] at hd
    by_cases hn : n = 0
    · rw [if_pos hn] at hd; cases hd
    · rw [if_neg hn] at hd
      rcases hd with _ | ⟨_, hd⟩
      · have : n % 10 < 10 := Nat.mod_lt _ (by omega)
        omega
      · exact ih (n / 10) d hd

theorem decDigitsAux_ne_nil (fuel n : Nat) (h0 : 0 < n) (hf : n ≤ fuel) :
    decDigitsAux fuel n ≠ [] := by
  cases fuel with
  | zero => omega
  | succ f =>
    rw [decDigitsAux, if_neg (by omega)]
    simp

theorem decDigitsAux_foldl :
    ∀ (fuel n a : Nat), n ≤ fuel →
      List.foldl (fun x d => x * 10 + (d - 48)) a ((decDigitsAux fuel n).reverse) =
        a * 10 ^ (decDigitsAux fuel n).length + n := by
  intro fuel
  induction fuel with
  | zero => intro n a h; interval_cases n; simp [decDigitsAux]
  | succ f ih =>
    intro n a h
    rw [decDigitsAux]
    by_cases hn : n = 0
    · rw [if_pos hn]; simp [hn]
    · rw [if_neg hn]
      rw [List.reverse_cons, List.foldl_append]
      rw [ih (n / 10) a (by omega)]
      simp only [List.foldl_cons, List.foldl_nil, List.length_cons]
      have h10 : n % 10 + 48 - 48 = n % 10 := by omega
      rw [h10, pow_succ]
      have := Nat.mod_add_div n 10
      ring_nf
      omega

theorem parseDec_natToDec (n : Nat) : parseDec (natToDec n) = n := by
  unfold natToDec parseDec
  by_cases hn : n = 0
  · rw [if_pos hn]; simp [hn]
  · rw [if_neg hn]
    rw [decDigitsAux_foldl n n 0 le_rfl]
    simp

theorem natToDec_digits (n : Nat) : ∀ d ∈ natToDec n, 48 ≤ d ∧ d ≤ 57 := by
  unfold natToDec
  by_cases hn : n = 0
  · rw [if_pos hn]; intro d hd; simp at hd; omega
  · rw [if_neg hn]
    intro d hd
    exact decDigitsAux_digits n n d (List.mem_reverse.mp hd)

theorem natToDec_ne_nil (n : Nat) : natToDec n ≠ [] := by
  unfold natToDec
  by_cases hn : n = 0
  · rw [if_pos hn]; simp
  · rw [if_neg hn]
    simp only [ne_eq, List.reverse_eq_nil_iff]
    exact decDigitsAux_ne_nil n n (by omega) le_rfl

theorem decDigitsAux_getLast :
    ∀ (fuel n : Nat), 0 < n → n ≤ fuel →
      ∃ d, (decDigitsAux fuel n).getLast? = some d ∧ 48 < d := by
  intro fuel
  induction fuel with
  | zero => intro n h0 hf; omega
  | succ f ih =>
    intro n h0 hf
    rw [decDigitsAux, if_neg (by omega)]
    by_cases hq : n / 10 = 0
    · have hlt : n < 10 := by omega
      have : decDigitsAux f (n / 10) = [] := by
        cases f
        · rfl
        · rw [decDigitsAux, if_pos hq]
      rw [this]
      refine ⟨n % 10 + 48, rfl, ?_⟩
      have : n % 10 = n := Nat.mod_eq_of_lt hlt
      omega
    · have h1 : 0 < n / 10 := by omega
      have h2 : n / 10 ≤ f := by
        have := Nat.div_lt_self h0 (by omega : 1 < 10)
        omega
      obtain ⟨d, hd, hgt⟩ := ih (n / 10) h1 h2
      refine ⟨d, ?_, hgt⟩
      have hne : decDigitsAux f (n / 10) ≠ [] := decDigitsAux_ne_nil f (n / 10) h1 h2
      cases hds : decDigitsAux f (n / 10) with
      | nil => exact absurd hds hne
      | cons y ys =>
        rw [hds] at hd
        rw [List.getLast?_cons_cons]
        exact hd

theorem natToDec_head_ne_48 (n : Nat) (hn : n ≠ 0) :
    (natToDec n).head? ≠ some 48 := by
  unfold natToDec
  rw [if_neg hn, List.head?_reverse]
  obtain ⟨d, hd, hgt⟩ := decDigitsAux_getLast n n (by omega) le_rfl
  rw [hd]
  intro hc
  cases hc
  omega

/-! ## Round-trip machinery: string and integer tokens -/

theorem span_digits (ds rest : List Nat) (h : ∀ d ∈ ds, isDigit d = true)
    (h2 : ∀ x, rest.head? = some x → isDigit x = false) :
    (ds ++ rest).takeWhile isDigit = ds ∧ (ds ++ rest).dropWhile isDigit = rest := by
  induction ds with
  | nil =>
    simp only [List.nil_append]
    cases rest with
    | nil => exact ⟨rfl, rfl⟩
    | cons x r =>
      rw [List.takeWhile_cons, List.dropWhile_cons, h2 x rfl]
      exact ⟨rfl, rfl⟩
  | cons d ds ih =>
    obtain ⟨ht, hd⟩ := ih (fun x hx => h x (by simp [hx]))
    rw [List.cons_append, List.takeWhile_cons, List.dropWhile_cons, h d (by simp)]
    rw [ht, hd]
    exact ⟨rfl, rfl⟩

theorem isDigit_58 : isDigit 58 = false := by decide

theorem isDigit_101 : isDigit 101 = false := by decide

theorem parseStrRaw_encStr (s rest : List Nat) :
    parseStrRaw (encStr s ++ rest) = some (s, rest) := by
  unfold parseStrRaw encStr
  rw [List.append_assoc, List.cons_append]
  obtain ⟨ht, hd⟩ := span_digits (natToDec s.length) (58 :: (s ++ rest))
    (fun d hd => by
      have := natToDec_digits s.length d hd
      unfold isDigit
      simp only [Bool.and_eq_true, decide_eq_true_eq]
      omega)
    (fun x hx => by
      cases hx
      exact isDigit_58)
  simp only [ht, hd]
  rw [if_neg (by simpa using natToDec_ne_nil s.length)]
  rw [parseDec_natToDec]
  rw [if_neg (by simp)]
  rw [List.take_left, List.drop_left]

theorem encStr_head (s : List Nat) : ∃ c cs, encStr s = c :: cs ∧ 48 ≤ c ∧ c ≤ 57 := by
  unfold encStr
  cases hds : natToDec s.length with
  | nil => exact absurd hds (natToDec_ne_nil s.length)
  | cons c cs =>
    have hc := natToDec_digits s.length c (by rw [hds]; simp)
    exact ⟨c, cs ++ 58 :: s, by simp, hc.1, hc.2⟩

theorem parseVal_encStr (f : Nat) (s rest : List Nat) (hf : 1 ≤ f) :
    parseVal f (encStr s ++ rest) = some (.str s, rest) := by
  obtain ⟨g, rfl⟩ : ∃ g, f = g + 1 := ⟨f - 1, by omega⟩
  obtain ⟨c, cs, hcons, hc1, hc2⟩ := encStr_head s
  rw [hcons, List.cons_append]
  simp only [parseVal]
  rw [if_neg (show ¬(c = 105) by omega), if_neg (show ¬(c = 108) by omega),
    if_neg (show ¬(c = 100) by omega)]
  rw [← List.cons_append, ← hcons, parseStrRaw_encStr]
  rfl

theorem parseVal_encNat (f : Nat) (n : Nat) (rest : List Nat) (hf : 1 ≤ f) :
    parseVal f (encNat n ++ rest) = some (.int (n : Int), rest) := by
  obtain ⟨g, rfl⟩ : ∃ g, f = g + 1 := ⟨f - 1, by omega⟩
  unfold encNat
  rw [List.cons_append]
  simp only [parseVal]
  rw [if_pos trivial]
  simp only [List.tail_cons, List.append_eq, List.nil_append]
  rw [List.append_assoc, List.cons_append]
  simp only [List.nil_append]
  unfold parseIntBody
  obtain ⟨ht, hd⟩ := span_digits (natToDec n) (101 :: rest)
    (fun d hd => by
      have := natToDec_digits n d hd
      unfold isDigit
      simp only [Bool.and_eq_true, decide_eq_true_eq]
      omega)
    (fun x hx => by
      cases hx
      exact isDigit_101)
  have hhead : (natToDec n ++ 101 :: rest).head? ≠ some 45 := by
    obtain ⟨c, cs, hcons⟩ : ∃ c cs, natToDec n = c :: cs := by
      cases hds : natToDec n with
      | nil => exact absurd hds (natToDec_ne_nil n)
      | cons c cs => exact ⟨c, cs, rfl⟩
    have hc := natToDec_digits n c (by rw [hcons]; simp)
    rw [hcons, List.cons_append]
    intro hx
    cases hx
    omega
  rw [if_neg hhead]
  simp only [ht, hd]
  rw [if_neg ?hcanon]
  case hcanon =>
    rintro (hnil | ⟨hlen, hhd⟩)
    · exact natToDec_ne_nil n hnil
    · by_cases hn : n = 0
      · rw [hn] at hlen
        simp [natToDec] at hlen
      · exact natToDec_head_ne_48 n hn hhd
  rw [parseDec_natToDec]

/-! ## Round-trip machinery: lists and dictionaries -/

theorem parseItems_spec {A : Type} (pv : List Nat → Option (BValue × List Nat))
    (enc : A → List Nat) (val : A → BValue) :
    ∀ xs : List A,
      (∀ x ∈ xs, ∃ c cs, enc x = c :: cs ∧ c ≠ 101) →
      (∀ x ∈ xs, ∀ rest, pv (enc x ++ rest) = some (val x, rest)) →
      ∀ (g : Nat) (rest : List Nat), xs.length + 1 ≤ g →
        parseItems pv g ((xs.map enc).flatten ++ 101 :: rest) = some (xs.map val, rest) := by
  intro xs
  induction xs with
  | nil =>
    intro _ _ g rest hg
    obtain ⟨g', rfl⟩ : ∃ g', g = g' + 1 := ⟨g - 1, by omega⟩
    simp [parseItems]
  | cons x xs ih =>
    intro hhead hpv g rest hg
    obtain ⟨g', rfl⟩ : ∃ g', g = g' + 1 := ⟨g - 1, by omega⟩
    obtain ⟨c, cs, hcons, hc⟩ := hhead x (by simp)
    rw [List.map_cons, List.flatten_cons, List.append_assoc]
    simp only [parseItems]
    have hne : ¬((enc x ++ ((xs.map enc).flatten ++ 101 :: rest)).head? = some 101) := by
      rw [hcons, List.cons_append, List.head?_cons]
      intro hx
      cases hx
      exact hc rfl
    rw [if_neg hne]
    rw [hpv x (by simp) ((xs.map enc).flatten ++ 101 :: rest)]
    simp only [Option.bind_eq_bind, Option.some_bind]
    rw [ih (fun y hy => hhead y (by simp [hy])) (fun y hy => hpv y (by simp [hy]))
      g' rest (by simp at hg; omega)]
    rfl

theorem parsePairs_nilterm (pv : List Nat → Option (BValue × List Nat)) (g : Nat)
    (rest : List Nat) : parsePairs pv (g + 1) (101 :: rest) = some ([], rest) := by
  simp [parsePairs]

theorem parsePairs_step (pv : List Nat → Option (BValue × List Nat)) (g : Nat)
    (k vbytes : List Nat) (w : BValue) (restbytes : List Nat)
    (ps : List (List Nat × BValue)) (rest : List Nat)
    (hpv : ∀ r, pv (vbytes ++ r) = some (w, r))
    (hrec : parsePairs pv g restbytes = some (ps, rest)) :
    parsePairs pv (g + 1) (encStr k ++ (vbytes ++ restbytes)) = some ((k, w) :: ps, rest) := by
  simp only [parsePairs]
  have hne : ¬((encStr k ++ (vbytes ++ restbytes)).head? = some 101) := by
    obtain ⟨c, cs, hcons, h1, h2⟩ := encStr_head k
    rw [hcons, List.cons_append, List.head?_cons]
    intro hx
    cases hx
    omega
  rw [if_neg hne, parseStrRaw_encStr]
  simp only [Option.bind_eq_bind, Option.some_bind]
  rw [hpv restbytes]
  simp only [Option.some_bind]
  rw [hrec]
  rfl

theorem parseVal_encStrList (f : Nat) (xs : List (List Nat)) (rest : List Nat)
    (hf : xs.length + 2 ≤ f) :
    parseVal f (encStrList xs ++ rest) = some (.list (xs.map BValue.str), rest) := by
  obtain ⟨g, rfl⟩ : ∃ g, f = g + 1 := ⟨f - 1, by omega⟩
  unfold encStrList
  rw [List.cons_append]
  simp only [parseVal]
  rw [if_neg (show ¬((108 : Nat) = 105) by decide), if_pos trivial]
  simp only [List.append_eq, List.append_assoc, List.singleton_append, List.nil_append]
  rw [parseItems_spec (parseVal g) encStr BValue.str xs
    (fun x _ => by
      obtain ⟨c, cs, hcons, h1, h2⟩ := encStr_head x
      exact ⟨c, cs, hcons, by omega⟩)
    (fun x _ r => parseVal_encStr g x r (by omega))
    g rest (by omega)]
  rfl

theorem parseVal_encFile (f : Nat) (fl : File) (rest : List Nat)
    (hf : boundFile fl ≤ f) :
    parseVal f (encFile fl ++ rest) = some (fileVal fl, rest) := by
  have hb : fl.path.length + 5 ≤ f := hf
  obtain ⟨g, rfl⟩ : ∃ g, f = g + 4 := ⟨f - 4, by omega⟩
  unfold encFile encDict filePairsB
  simp only [List.map_cons, List.map_nil, List.flatten_cons, List.flatten_nil,
    List.append_nil, List.cons_append, List.append_assoc, List.singleton_append,
    List.nil_append, List.append_eq]
  simp only [parseVal]
  rw [if_neg (show ¬((100 : Nat) = 105) by decide),
    if_neg (show ¬((100 : Nat) = 108) by decide), if_pos trivial]
  have hpairs : parsePairs (parseVal (g + 3)) (g + 3)
      (encStr lengthK ++ (encNat fl.length ++ (encStr pathK ++ (encStrList fl.path ++ 101 :: rest)))) =
      some ([(lengthK, .int (fl.length : Int)),
             (pathK, .list (fl.path.map BValue.str))], rest) := by
    exact parsePairs_step (parseVal (g + 3)) (g + 2) lengthK (encNat fl.length)
      (.int (fl.length : Int)) _ _ _
      (fun r => parseVal_encNat (g + 3) fl.length r (by omega))
      (parsePairs_step (parseVal (g + 3)) (g + 1) pathK (encStrList fl.path)
        (.list (fl.path.map BValue.str)) _ _ _
        (fun r => parseVal_encStrList (g + 3) fl.path r (by omega))
        (parsePairs_nilterm (parseVal (g + 3)) g rest))
  rw [hpairs]
  rfl

theorem parseVal_encFiles (f : Nat) (fs : List File) (rest : List Nat)
    (hf : boundFiles fs ≤ f) :
    parseVal f (encFiles fs ++ rest) = some (.list (fs.map fileVal), rest) := by
  have hb : (fs.map (fun x => x.path.length)).sum + fs.length + 7 ≤ f := hf
  obtain ⟨g, rfl⟩ : ∃ g, f = g + 1 := ⟨f - 1, by omega⟩
  unfold encFiles
  rw [List.cons_append]
  simp only [parseVal]
  rw [if_neg (show ¬((108 : Nat) = 105) by decide), if_pos trivial]
  simp only [List.append_eq, List.append_assoc, List.singleton_append, List.nil_append]
  rw [parseItems_spec (parseVal g) encFile fileVal fs
    (fun fl _ => ⟨100, _, rfl, by decide⟩)
    (fun fl hfl r => parseVal_encFile g fl r (by
      have hmem : fl.path.length ∈ fs.map (fun x => x.path.length) :=
        List.mem_map_of_mem (fun x => x.path.length) hfl
      have := List.single_le_sum (fun (x : Nat) _ => Nat.zero_le x) _ hmem
      unfold boundFile
      omega))
    g rest (by omega)]
  rfl

theorem parseVal_encodeInfo (f : Nat) (I : Info) (rest : List Nat)
    (hf : boundInfo I ≤ f) :
    parseVal f (encodeInfoBytes I ++ rest) = some (infoVal I, rest) := by
  obtain ⟨name, pl, files, pieces⟩ := I
  cases files with
  | single n =>
    have hb : 9 ≤ f := hf
    obtain ⟨g, rfl⟩ : ∃ g, f = g + 6 := ⟨f - 6, by omega⟩
    unfold encodeInfoBytes encDict infoPairsB
    simp only [List.map_cons, List.map_nil, List.flatten_cons, List.flatten_nil,
      List.append_nil, List.cons_append, List.append_assoc, List.singleton_append,
      List.nil_append, List.append_eq]
    simp only [parseVal]
    rw [if_neg (show ¬((100 : Nat) = 105) by decide),
      if_neg (show ¬((100 : Nat) = 108) by decide), if_pos trivial]
    have hpairs : parsePairs (parseVal (g + 5)) (g + 5)
        (encStr lengthK ++ (encNat n ++ (encStr nameK ++ (encStr name ++
          (encStr pieceLengthK ++ (encNat pl ++ (encStr piecesK ++ (encStr pieces ++
            101 :: rest)))))))) =
        some ([(lengthK, .int (n : Int)), (nameK, .str name),
               (pieceLengthK, .int (pl : Int)), (piecesK, .str pieces)], rest) := by
      exact parsePairs_step (parseVal (g + 5)) (g + 4) lengthK (encNat n)
        (.int (n : Int)) _ _ _
        (fun r => parseVal_encNat (g + 5) n r (by omega))
        (parsePairs_step (parseVal (g + 5)) (g + 3) nameK (encStr name)
          (.str name) _ _ _
          (fun r => parseVal_encStr (g + 5) name r (by omega))
          (parsePairs_step (parseVal (g + 5)) (g + 2) pieceLengthK (encNat pl)
            (.int (pl : Int)) _ _ _
            (fun r => parseVal_encNat (g + 5) pl r (by omega))
            (parsePairs_step (parseVal (g + 5)) (g + 1) piecesK (encStr pieces)
              (.str pieces) _ _ _
              (fun r => parseVal_encStr (g + 5) pieces r (by omega))
              (parsePairs_nilterm (parseVal (g + 5)) g rest))))
    rw [hpairs]
    rfl
  | multiple fs =>
    have hb : (fs.map (fun x => x.path.length)).sum + fs.length + 9 ≤ f := hf
    obtain ⟨g, rfl⟩ : ∃ g, f = g + 6 := ⟨f - 6, by omega⟩
    unfold encodeInfoBytes encDict infoPairsB
    simp only [List.map_cons, List.map_nil, List.flatten_cons, List.flatten_nil,
      List.append_nil, List.cons_append, List.append_assoc, List.singleton_append,
      List.nil_append, List.append_eq]
    simp only [parseVal]
    rw [if_neg (show ¬((100 : Nat) = 105) by decide),
      if_neg (show ¬((100 : Nat) = 108) by decide), if_pos trivial]
    have hpairs : parsePairs (parseVal (g + 5)) (g + 5)
        (encStr filesK ++ (encFiles fs ++ (encStr nameK ++ (encStr name ++
          (encStr pieceLengthK ++ (encNat pl ++ (encStr piecesK ++ (encStr pieces ++
            101 :: rest)))))))) =
        some ([(filesK, .list (fs.map fileVal)), (nameK, .str name),
               (pieceLengthK, .int (pl : Int)), (piecesK, .str pieces)], rest) := by
      exact parsePairs_step (parseVal (g + 5)) (g + 4) filesK (encFiles fs)
        (.list (fs.map fileVal)) _ _ _
        (fun r => parseVal_encFiles (g + 5) fs r (by unfold boundFiles; omega))
        (parsePairs_step (parseVal (g + 5)) (g + 3) nameK (encStr name)
          (.str name) _ _ _
          (fun r => parseVal_encStr (g + 5) name r (by omega))
          (parsePairs_step (parseVal (g + 5)) (g + 2) pieceLengthK (encNat pl)
            (.int (pl : Int)) _ _ _
            (fun r => parseVal_encNat (g + 5) pl r (by omega))
            (parsePairs_step (parseVal (g + 5)) (g + 1) piecesK (encStr pieces)
              (.str pieces) _ _ _
              (fun r => parseVal_encStr (g + 5) pieces r (by omega))
              (parsePairs_nilterm (parseVal (g + 5)) g rest))))
    rw [hpairs]
    rfl

/-! ## Round-trip machinery: length bounds -/

theorem len_encStr (s : List Nat) : s.length + 2 ≤ (encStr s).length := by
  unfold encStr
  have h : 0 < (natToDec s.length).length :=
    List.length_pos.mpr (natToDec_ne_nil s.length)
  simp only [List.length_append, List.length_cons]
  omega

theorem len_encNat (n : Nat) : 3 ≤ (encNat n).length := by
  unfold encNat
  have h : 0 < (natToDec n).length := List.length_pos.mpr (natToDec_ne_nil n)
  simp only [List.length_cons, List.length_append]
  simp
  omega

theorem len_flatten_encStr (ys : List (List Nat)) :
    ys.length ≤ ((ys.map encStr).flatten).length := by
  induction ys with
  | nil => simp
  | cons y ys ih =>
    rw [List.map_cons, List.flatten_cons, List.length_append, List.length_cons]
    have := len_encStr y
    omega

theorem len_encStrList (xs : List (List Nat)) : xs.length + 2 ≤ (encStrList xs).length := by
  unfold encStrList
  simp only [List.length_append, List.length_cons, List.length_singleton]
  have := len_flatten_encStr xs
  omega

theorem len_encFile (fl : File) : fl.path.length + 1 ≤ (encFile fl).length := by
  unfold encFile encDict filePairsB
  simp only [List.map_cons, List.map_nil, List.flatten_cons, List.flatten_nil,
    List.append_nil, List.length_cons, List.length_append]
  have h1 := len_encStrList fl.path
  omega

theorem len_encFiles (fs : List File) :
    (fs.map (fun x => x.path.length)).sum + fs.length + 2 ≤ (encFiles fs).length := by
  unfold encFiles
  have h : ∀ gs : List File,
      (gs.map (fun x => x.path.length)).sum + gs.length ≤ ((gs.map encFile).flatten).length := by
    intro gs
    induction gs with
    | nil => simp
    | cons y ys ih =>
      simp only [List.map_cons, List.flatten_cons, List.length_append,
        List.sum_cons, List.length_cons]
      have := len_encFile y
      omega
  simp only [List.length_append, List.length_cons, List.length_singleton]
  have := h fs
  omega

theorem boundInfo_le (I : Info) : boundInfo I ≤ (encodeInfoBytes I).length + 1 := by
  obtain ⟨name, pl, files, pieces⟩ := I
  cases files with
  | single n =>
    unfold boundInfo encodeInfoBytes encDict infoPairsB
    simp only [List.map_cons, List.map_nil, List.flatten_cons, List.flatten_nil,
      List.append_nil, List.length_cons, List.length_append, List.cons_append,
      List.nil_append]
    have h1 := len_encStr lengthK
    have h2 := len_encNat n
    have h3 := len_encStr nameK
    have h4 := len_encNat pl
    have h5 := len_encStr piecesK
    omega
  | multiple fs =>
    unfold boundInfo encodeInfoBytes encDict infoPairsB
    simp only [List.map_cons, List.map_nil, List.flatten_cons, List.flatten_nil,
      List.append_nil, List.length_cons, List.length_append, List.cons_append,
      List.nil_append]
    have h1 := len_encFiles fs
    have h2 := len_encStr nameK
    have h3 := len_encNat pl
    have h4 := len_encStr piecesK
    omega

/-! ## Round-trip machinery: decoder facts -/

theorem parseU64_coe (n : Nat) (h : n < 2 ^ 64) : parseU64 (n : Int) = some n := by
  unfold parseU64
  rw [if_pos (by constructor <;> omega : 0 ≤ (n : Int) ∧ (n : Int) < 2 ^ 64)]
  simp

theorem decodeU64_ok_of (i : Int) (n : Nat) (h : parseU64 i = some n) :
    decodeU64 (.int i) = .ok n := by
  simp only [decodeU64, h]

theorem decodeU64_coe (n : Nat) (h : n < 2 ^ 64) : decodeU64 (.int (n : Int)) = .ok n :=
  decodeU64_ok_of (n : Int) n (parseU64_coe n h)

theorem decodeText_valid (v : BValue) (x : List Nat) (h : decodeText v = .ok x) :
    isValidUtf8 x = true := by
  cases v with
  | str s =>
    simp only [decodeText] at h
    by_cases hv : isValidUtf8 s = true
    · rw [if_pos hv] at h
      cases h
      exact hv
    · rw [if_neg hv] at h
      cases h
  | int i => simp only [decodeText] at h; cases h
  | list xs => simp only [decodeText] at h; cases h
  | dict ps => simp only [decodeText] at h; cases h

theorem decodeU64_lt (v : BValue) (n : Nat) (h : decodeU64 v = .ok n) : n < 2 ^ 64 := by
  cases v with
  | int i =>
    simp only [decodeU64, parseU64] at h
    by_cases hc : 0 ≤ i ∧ i < 2 ^ 64
    · rw [if_pos hc] at h
      cases h
      omega
    · rw [if_neg hc] at h
      cases h
  | str s => simp only [decodeU64] at h; cases h
  | list xs => simp only [decodeU64] at h; cases h
  | dict ps => simp only [decodeU64] at h; cases h

theorem decodeTextList_valid (v : BValue) (xs : List (List Nat))
    (h : decodeTextList v = .ok xs) : ∀ x ∈ xs, isValidUtf8 x = true := by
  cases v with
  | list l =>
    simp only [decodeTextList] at h
    intro x hx
    obtain ⟨y, _, hy⟩ := mapME_ok_forall decodeText l xs h x hx
    exact decodeText_valid y x hy
  | int i => simp only [decodeTextList] at h; cases h
  | str s => simp only [decodeTextList] at h; cases h
  | dict ps => simp only [decodeTextList] at h; cases h

theorem WFfile_of_ok (v : BValue) (f : File) (h : decodeFileVal v = .ok f) :
    WFfile f := by
  cases v with
  | dict ps =>
    obtain ⟨s, hf, hl, hp⟩ := decodeFileVal_ok_elim ps f h
    have hInv := foldlM_inv fileStep
      (fun st => (∀ n, st.length? = some n → n < 2 ^ 64) ∧
        (∀ xs, st.path? = some xs → ∀ x ∈ xs, isValidUtf8 x = true))
      (by
        intro st a st' hI hstep
        obtain ⟨E1, E2⟩ := fileStep_eff st st' a hstep
        constructor
        · intro n hn
          by_cases hk : a.1 = lengthK
          · rw [if_pos hk] at E1
            obtain ⟨m, hdm, hm⟩ := E1
            rw [hn] at hm
            cases hm
            exact decodeU64_lt a.2 n hdm
          · rw [if_neg hk] at E1
            rw [E1] at hn
            exact hI.1 n hn
        · intro xs hxs
          by_cases hk : a.1 = pathK
          · rw [if_pos hk] at E2
            obtain ⟨ys, hdy, hy⟩ := E2
            rw [hxs] at hy
            cases hy
            exact decodeTextList_valid a.2 xs hdy
          · rw [if_neg hk] at E2
            rw [E2] at hxs
            exact hI.2 xs hxs)
      ps ⟨none, none⟩ s hf
      (by constructor <;> intro _ h' <;> cases h')
    exact ⟨hInv.1 f.length hl, hInv.2 f.path hp⟩
  | int i => simp only [decodeFileVal] at h; cases h
  | str s => simp only [decodeFileVal] at h; cases h
  | list xs => simp only [decodeFileVal] at h; cases h

theorem decodeFileList_wf (v : BValue) (fs : List File)
    (h : decodeFileList v = .ok fs) : ∀ fl ∈ fs, WFfile fl := by
  cases v with
  | list l =>
    simp only [decodeFileList] at h
    intro fl hfl
    obtain ⟨w, _, hw⟩ := mapME_ok_forall decodeFileVal l fs h fl hfl
    exact WFfile_of_ok w fl hw
  | int i => simp only [decodeFileList] at h; cases h
  | str s => simp only [decodeFileList] at h; cases h
  | dict ps => simp only [decodeFileList] at h; cases h

theorem WFinfo_of_ok (v : BValue) (I : Info) (h : decodeInfoVal v = .ok I) :
    WFinfo I := by
  cases v with
  | dict ps =>
    obtain ⟨s, hf, hn, hp, hq, hlayout⟩ := decodeInfoVal_ok_elim ps I h
    have hInv := foldlM_inv infoStep
      (fun st => (∀ x, st.name? = some x → isValidUtf8 x = true) ∧
        (∀ n, st.pieceLength? = some n → n < 2 ^ 64) ∧
        (∀ n, st.length? = some n → n < 2 ^ 64) ∧
        (∀ fl ∈ st.files, WFfile fl))
      (by
        intro st a st' hI hstep
        obtain ⟨E1, E2, E3, E4, E5⟩ := infoStep_eff st st' a hstep
        refine ⟨?_, ?_, ?_, ?_⟩
        · intro x hx
          by_cases hk : a.1 = nameK
          · rw [if_pos hk] at E1
            obtain ⟨y, hdy, hy⟩ := E1
            rw [hx] at hy
            cases hy
            exact decodeText_valid a.2 x hdy
          · rw [if_neg hk] at E1
            rw [E1] at hx
            exact hI.1 x hx
        · intro n hn
          by_cases hk : a.1 = pieceLengthK
          · rw [if_pos hk] at E2
            obtain ⟨m, hdm, hm⟩ := E2
            rw [hn] at hm
            cases hm
            exact decodeU64_lt a.2 n hdm
          · rw [if_neg hk] at E2
            rw [E2] at hn
            exact hI.2.1 n hn
        · intro n hn
          by_cases hk : a.1 = lengthK
          · rw [if_pos hk] at E4
            obtain ⟨m, hdm, hm⟩ := E4
            rw [hn] at hm
            cases hm
            exact decodeU64_lt a.2 n hdm
          · rw [if_neg hk] at E4
            rw [E4] at hn
            exact hI.2.2.1 n hn
        · intro fl hfl
          by_cases hk : a.1 = filesK
          · rw [if_pos hk] at E5
            obtain ⟨fs, hdf, hfs⟩ := E5
            rw [hfs] at hfl
            rcases List.mem_append.mp hfl with hold | hnew
            · exact hI.2.2.2 fl hold
            · exact decodeFileList_wf a.2 fs hdf fl hnew
          · rw [if_neg hk] at E5
            rw [E5] at hfl
            exact hI.2.2.2 fl hfl)
      ps initI s hf
      (by
        refine ⟨?_, ?_, ?_, ?_⟩ <;> intro _ h' <;> cases h' )
    unfold WFinfo
    refine ⟨hInv.1 I.name hn, hInv.2.1 I.piece_length hp, ?_⟩
    rcases hlayout with ⟨hemp, m, hlm, hIf⟩ | ⟨hne, hIf⟩
    · rw [hIf]
      exact hInv.2.2.1 m hlm
    · rw [hIf]
      exact ⟨hne, hInv.2.2.2⟩
  | int i => simp only [decodeInfoVal] at h; cases h
  | str s => simp only [decodeInfoVal] at h; cases h
  | list xs => simp only [decodeInfoVal] at h; cases h

/-! ## Round-trip machinery: decoding the canonical encoding -/

theorem decodeText_str (x : List Nat) (hx : isValidUtf8 x = true) :
    decodeText (.str x) = .ok x := by
  simp [decodeText, hx]

theorem decodeTextList_strs (xs : List (List Nat)) (h : ∀ x ∈ xs, isValidUtf8 x = true) :
    decodeTextList (.list (xs.map BValue.str)) = .ok xs := by
  simp only [decodeTextList]
  exact mapME_map_ok decodeText BValue.str xs (fun x hx => decodeText_str x (h x hx))

theorem fileStep_on_length (s : FState) (n : Nat) (h : n < 2 ^ 64) :
    fileStep s (lengthK, .int (n : Int)) = .ok { s with length? := some n } := by
  unfold fileStep
  rw [if_pos (show ((lengthK, BValue.int (n : Int)).1 = lengthK) from rfl)]
  rw [decodeU64_coe n h]
  rfl

theorem fileStep_on_path (s : FState) (xs : List (List Nat))
    (h : ∀ x ∈ xs, isValidUtf8 x = true) :
    fileStep s (pathK, .list (xs.map BValue.str)) = .ok { s with path? := some xs } := by
  unfold fileStep
  rw [if_neg (show ¬((pathK, BValue.list (xs.map BValue.str)).1 = lengthK) from
    fun hc => path_ne_lengthK hc)]
  rw [if_pos (show ((pathK, BValue.list (xs.map BValue.str)).1 = pathK) from rfl)]
  rw [decodeTextList_strs xs h]
  rfl

theorem decodeFileVal_fileVal (fl : File) (hwf : WFfile fl) :
    decodeFileVal (fileVal fl) = .ok fl := by
  obtain ⟨l, path⟩ := fl
  obtain ⟨hl, hpath⟩ := hwf
  simp only [fileVal, decodeFileVal]
  simp only [foldlM_except_cons, foldlM_except_nil,
    fileStep_on_length _ l hl, fileStep_on_path _ path hpath]
  rfl

theorem decodeFileList_fileVals (fs : List File) (h : ∀ fl ∈ fs, WFfile fl) :
    decodeFileList (.list (fs.map fileVal)) = .ok fs := by
  simp only [decodeFileList]
  exact mapME_map_ok decodeFileVal fileVal fs (fun fl hfl => decodeFileVal_fileVal fl (h fl hfl))

theorem infoStep_on_length (s : IState) (n : Nat) (h : n < 2 ^ 64) :
    infoStep s (lengthK, .int (n : Int)) = .ok { s with length? := some n } := by
  unfold infoStep
  rw [if_pos (show ((lengthK, BValue.int (n : Int)).1 = lengthK) from rfl)]
  rw [decodeU64_coe n h]
  rfl

theorem infoStep_on_name (s : IState) (x : List Nat) (hx : isValidUtf8 x = true) :
    infoStep s (nameK, .str x) = .ok { s with name? := some x } := by
  unfold infoStep
  rw [if_neg (show ¬((nameK, BValue.str x).1 = lengthK) from fun hc => name_ne_lengthK hc)]
  rw [if_pos (show ((nameK, BValue.str x).1 = nameK) from rfl)]
  rw [decodeText_str x hx]
  rfl

theorem infoStep_on_pl (s : IState) (n : Nat) (h : n < 2 ^ 64) :
    infoStep s (pieceLengthK, .int (n : Int)) = .ok { s with pieceLength? := some n } := by
  unfold infoStep
  rw [if_neg (show ¬((pieceLengthK, BValue.int (n : Int)).1 = lengthK) from
    fun hc => pieceLength_ne_lengthK hc)]
  rw [if_neg (show ¬((pieceLengthK, BValue.int (n : Int)).1 = nameK) from
    fun hc => pieceLength_ne_nameK hc)]
  rw [if_pos (show ((pieceLengthK, BValue.int (n : Int)).1 = pieceLengthK) from rfl)]
  rw [decodeU64_coe n h]
  rfl

theorem infoStep_on_pieces (s : IState) (x : List Nat) :
    infoStep s (piecesK, .str x) = .ok { s with pieces? := some x } := by
  unfold infoStep
  rw [if_neg (show ¬((piecesK, BValue.str x).1 = lengthK) from fun hc => pieces_ne_lengthK hc)]
  rw [if_neg (show ¬((piecesK, BValue.str x).1 = nameK) from fun hc => pieces_ne_nameK hc)]
  rw [if_neg (show ¬((piecesK, BValue.str x).1 = pieceLengthK) from
    fun hc => pieces_ne_pieceLengthK hc)]
  rw [if_pos (show ((piecesK, BValue.str x).1 = piecesK) from rfl)]
  rfl

theorem infoStep_on_files (s : IState) (v : BValue) (fs : List File)
    (h : decodeFileList v = .ok fs) :
    infoStep s (filesK, v) = .ok { s with files := s.files ++ fs } := by
  unfold infoStep
  rw [if_neg (show ¬((filesK, v).1 = lengthK) from fun hc => files_ne_lengthK hc)]
  rw [if_neg (show ¬((filesK, v).1 = nameK) from fun hc => files_ne_nameK hc)]
  rw [if_neg (show ¬((filesK, v).1 = pieceLengthK) from fun hc => files_ne_pieceLengthK hc)]
  rw [if_neg (show ¬((filesK, v).1 = piecesK) from fun hc => files_ne_piecesK hc)]
  rw [if_pos (show ((filesK, v).1 = filesK) from rfl)]
  rw [h]
  rfl

theorem decodeInfoVal_infoVal (I : Info) (hwf : WFinfo I) :
    decodeInfoVal (infoVal I) = .ok I := by
  obtain ⟨name, pl, files, pieces⟩ := I
  obtain ⟨hname, hpl, hlay⟩ := hwf
  cases files with
  | single n =>
    have hn : n < 2 ^ 64 := hlay
    simp only [infoVal, List.cons_append, List.nil_append, decodeInfoVal]
    simp only [foldlM_except_cons, foldlM_except_nil,
      infoStep_on_length _ n hn, infoStep_on_name _ name hname,
      infoStep_on_pl _ pl hpl, infoStep_on_pieces _ pieces]
    rfl
  | multiple fs =>
    obtain ⟨hne, hwfs⟩ := hlay
    have hdf : decodeFileList (.list (fs.map fileVal)) = .ok fs :=
      decodeFileList_fileVals fs hwfs
    simp only [infoVal, List.cons_append, List.nil_append, decodeInfoVal]
    simp only [foldlM_except_cons, foldlM_except_nil,
      infoStep_on_files _ _ fs hdf, infoStep_on_name _ name hname,
      infoStep_on_pl _ pl hpl, infoStep_on_pieces _ pieces]
    have hie : fs.isEmpty = false := by
      cases fs
      · exact absurd rfl hne
      · rfl
    simp only [initI, List.nil_append, Bind.bind, Except.bind, hie]
    rfl

theorem depthLE_infoVal_single (I : Info) (n : Nat) (h : I.files = .single n) :
    depthLE 1 (infoVal I) = true := by
  simp only [infoVal, h]
  rfl

theorem depthLE_infoVal_multiple (I : Info) (fs : List File) (h : I.files = .multiple fs) :
    depthLE 1 (infoVal I) = false := by
  simp only [infoVal, h]
  rfl

theorem parseTop_encodeInfo (I : Info) :
    parseTop (encodeInfoBytes I) = some (infoVal I) := by
  unfold parseTop
  have henc := parseVal_encodeInfo ((encodeInfoBytes I).length + 1) I [] (boundInfo_le I)
  rw [List.append_nil] at henc
  rw [henc]

theorem WFinfo_of_decodeBencodeBytes (input : List Nat) (b : Bencode)
    (h : decodeBencodeBytes input = .ok b) : WFinfo b.info := by
  unfold decodeBencodeBytes at h
  cases hpt : parseTop input with
  | none => simp only [hpt] at h; cases h
  | some v =>
    simp only [hpt] at h
    by_cases hdv : depthLE 2048 v = true
    · rw [if_pos hdv] at h
      cases v with
      | dict ps =>
        obtain ⟨s, hf, _, hi⟩ := decodeBencodeVal_ok_elim ps b h
        obtain ⟨_, Minfo⟩ := bencodeLoop_fields ps ⟨none, none⟩ s hf
        cases hlv : lastVal infoK ps with
        | none =>
          simp only [hlv] at Minfo
          rw [hi] at Minfo
          simp at Minfo
        | some w =>
          simp only [hlv] at Minfo
          obtain ⟨i, hdi, hsi⟩ := Minfo
          rw [hi] at hsi
          cases hsi
          exact WFinfo_of_ok w b.info hdi
      | int i => simp only [decodeBencodeVal] at h; cases h
      | str s => simp only [decodeBencodeVal] at h; cases h
      | list xs => simp only [decodeBencodeVal] at h; cases h
    · rw [if_neg hdv] at h
      cases h

/-- Claim C7 fails on the code: `Info::from_bencode` caps the decoder's
nesting depth at `EXPECTED_RECURSION_DEPTH = 1`, while the canonical
encoding of a `Multiple`-layout info nests four container levels
(dictionary, files list, file dictionary, path list).  A concrete
multi-file metainfo buffer decodes successfully (the root decoder uses
bendy's 2048 default), but re-decoding the canonical encoding of its
info dictionary fails with `NestingTooDeep` instead of returning the
same `Info`. -/
theorem c7_roundtrip_counterexample :
    decodeBencodeBytes (ascii
        "d8:announce1:u4:infod5:filesld6:lengthi1e4:pathl1:peee4:name1:x12:piece lengthi1e6:pieces0:ee") =
      .ok ⟨ascii "u", ⟨ascii "x", 1, .multiple [⟨1, [ascii "p"]⟩], []⟩⟩ ∧
    decodeInfoBytes (encodeInfoBytes ⟨ascii "x", 1, .multiple [⟨1, [ascii "p"]⟩], []⟩) =
      .error .nestingTooDeep ∧
    decodeInfoBytes (encodeInfoBytes ⟨ascii "x", 1, .multiple [⟨1, [ascii "p"]⟩], []⟩) ≠
      .ok ⟨ascii "x", 1, .multiple [⟨1, [ascii "p"]⟩], []⟩ := by
  refine ⟨rfl, rfl, ?_⟩
  intro h
  rw [show decodeInfoBytes
      (encodeInfoBytes ⟨ascii "x", 1, .multiple [⟨1, [ascii "p"]⟩], []⟩) =
      .error .nestingTooDeep from rfl] at h
  cases h

/-- Claim C7 amended: for every `Info` obtained by successfully
decoding a metainfo buffer, re-decoding its canonical encoding yields a
structurally equal `Info` when the layout is `Single`; when the layout
is `Multiple` the re-decode instead fails with `NestingTooDeep`,
because `Info::from_bencode` caps the nesting depth at
`EXPECTED_RECURSION_DEPTH = 1` and the encoding of a multi-file info
nests four container levels. -/
theorem c7_roundtrip_amended :
    ∀ (input : List Nat) (b : Bencode),
      decodeBencodeBytes input = .ok b →
      (∀ n, b.info.files = .single n →
         decodeInfoBytes (encodeInfoBytes b.info) = .ok b.info) ∧
      (∀ fs, b.info.files = .multiple fs →
         decodeInfoBytes (encodeInfoBytes b.info) = .error .nestingTooDeep) := by
  intro input b h
  have hWF : WFinfo b.info := WFinfo_of_decodeBencodeBytes input b h
  constructor
  · intro n hn
    unfold decodeInfoBytes
    simp only [parseTop_encodeInfo b.info]
    rw [if_pos (depthLE_infoVal_single b.info n hn)]
    exact decodeInfoVal_infoVal b.info hWF
  · intro fs hf
    unfold decodeInfoBytes
    simp only [parseTop_encodeInfo b.info]
    rw [if_neg (show ¬(depthLE 1 (infoVal b.info) = true) from by
        rw [depthLE_infoVal_multiple b.info fs hf]
        simp)]

/-- Witness for the amended C7 at concrete inputs: a single-file torrent
round-trips to the identical `Info`, and a multi-file torrent's info
fails its re-decode with `NestingTooDeep`. -/
theorem c7_roundtrip_amended_witness :
    decodeInfoBytes (encodeInfoBytes (⟨ascii "x", 1, .single 1, []⟩ : Info)) =
      .ok ⟨ascii "x", 1, .single 1, []⟩ ∧
    decodeInfoBytes (encodeInfoBytes (⟨ascii "x", 1, .multiple [⟨1, [ascii "p"]⟩], []⟩ : Info)) =
      .error .nestingTooDeep := by
  constructor
  · exact (c7_roundtrip_amended
      (ascii "d8:announce1:u4:infod6:lengthi1e4:name1:x12:piece lengthi1e6:pieces0:ee")
      ⟨ascii "u", ⟨ascii "x", 1, .single 1, []⟩⟩ rfl).1 1 rfl
  · exact (c7_roundtrip_amended
      (ascii
        "d8:announce1:u4:infod5:filesld6:lengthi1e4:pathl1:peee4:name1:x12:piece lengthi1e6:pieces0:ee")
      ⟨ascii "u", ⟨ascii "x", 1, .multiple [⟨1, [ascii "p"]⟩], []⟩⟩ rfl).2
      [⟨1, [ascii "p"]⟩] rfl

end Torrent
